import Mathlib

/-!
Verification of the graph data-structure-and-algorithms core described by the
specification of this repository, as a shallow embedding in Lean, together with
an embedding of the cart-recommendation program found in the sources.

The repository sources only contain callers of the graph core (demo programs
and documentation); the core itself is not among the source files.  The
definitions in the `EG` namespace are therefore modelled from the
specification (sections 3, 4 and 6): persistent graphs with stable integer
indices, a mutation scope over a private working copy, structural transforms,
and the analysis and shortest-path algorithms.  Every definition is
executable.  The cart-recommendation program (`CartRec` namespace) is
translated directly from its source file.
-/

namespace EG

/-- Modelled from the spec: the graph kind.  A graph is created with a fixed
kind, directed or undirected (spec section 3, "Graph: { kind:
Directed|Undirected, ... }").  The library implementation is missing from the
sources; only callers are present. -/
inductive Kind
| directed
| undirected
deriving DecidableEq, Repr

/-- Modelled from the spec: an edge record "Edge: { index, source, target,
payload }" (the index is the key under which the record is stored). -/
structure EdgeData (E : Type) where
  source : Nat
  target : Nat
  payload : E
deriving DecidableEq, Repr

/-- Modelled from the spec: the immutable graph snapshot.  `nodes` and `edges`
are index-keyed stores; `nextNode` and `nextEdge` are the allocator counters
that make indices unique within a lineage ("assigned monotonically and never
reused even after removal").  Adjacency is derived from the edge store, so the
spec's adjacency invariants hold by construction. -/
structure Graph (N E : Type) where
  kind : Kind
  nodes : List (Nat × N)
  edges : List (Nat × EdgeData E)
  nextNode : Nat
  nextEdge : Nat
deriving DecidableEq, Repr

/-- Modelled from the spec: the private working copy owned by a mutation
scope (spec section 4.2).  It carries the same storage as a snapshot; edits
inside a scope hit this copy only. -/
structure MutableGraph (N E : Type) where
  kind : Kind
  nodes : List (Nat × N)
  edges : List (Nat × EdgeData E)
  nextNode : Nat
  nextEdge : Nat
deriving DecidableEq, Repr

variable {N E : Type}

/-- Modelled from the spec: creating an empty graph with a fixed kind
(`emptyDirected()` / `emptyUndirected()`). -/
def empty (k : Kind) : Graph N E := ⟨k, [], [], 0, 0⟩

/-- Modelled from the spec: `Graph.directed()` creates an empty directed
graph. -/
def directed : Graph N E := empty Kind.directed

/-- Modelled from the spec: `Graph.undirected()` creates an empty undirected
graph. -/
def undirected : Graph N E := empty Kind.undirected

/-- Modelled from the spec: entering a mutation scope hands the body a
working copy of the snapshot's storage. -/
def beginMutation (g : Graph N E) : MutableGraph N E :=
  ⟨g.kind, g.nodes, g.edges, g.nextNode, g.nextEdge⟩

/-- Modelled from the spec: on scope exit the working copy freezes into a new
immutable snapshot. -/
def commit (m : MutableGraph N E) : Graph N E :=
  ⟨m.kind, m.nodes, m.edges, m.nextNode, m.nextEdge⟩

/-- Modelled from the spec: `withMutations(graph, body)` (called
`Graph.mutate` by the callers in the sources): run `body` on a private
working copy and freeze the result into a new snapshot. -/
def mutate (g : Graph N E) (body : MutableGraph N E → MutableGraph N E) : Graph N E :=
  commit (body (beginMutation g))

/-- Membership test on the working copy's node store. -/
def hasNode (m : MutableGraph N E) (i : Nat) : Bool :=
  m.nodes.any (fun q => q.1 == i)

/-- Membership test on the working copy's edge store. -/
def hasEdge (m : MutableGraph N E) (i : Nat) : Bool :=
  m.edges.any (fun q => q.1 == i)

/-- Modelled from the spec: `addNode(graph, payload) -> (graph', NodeIndex)`.
The new node receives the allocator counter as its index and the counter
advances, so indices start at 0 and grow monotonically. -/
def addNode (m : MutableGraph N E) (p : N) : MutableGraph N E × Nat :=
  ({ m with nodes := m.nodes ++ [(m.nextNode, p)], nextNode := m.nextNode + 1 }, m.nextNode)

/-- Modelled from the spec: `addEdge(graph, source, target, payload) ->
(graph', EdgeIndex)`; fails with `UnknownNode` (here: `none`, leaving storage
untouched) if either endpoint is missing; self-loops and parallel edges never
fail. -/
def addEdge (m : MutableGraph N E) (s t : Nat) (p : E) : MutableGraph N E × Option Nat :=
  if hasNode m s && hasNode m t then
    ({ m with edges := m.edges ++ [(m.nextEdge, ⟨s, t, p⟩)], nextEdge := m.nextEdge + 1 },
      some m.nextEdge)
  else (m, none)

/-- Modelled from the spec: `removeEdge` deletes the edge stored under the
given index; the allocator counter is not rolled back. -/
def removeEdge (m : MutableGraph N E) (i : Nat) : MutableGraph N E :=
  { m with edges := m.edges.filter (fun q => q.1 != i) }

/-- Modelled from the spec: `removeNode` deletes the node and every incident
edge; the allocator counters are not rolled back. -/
def removeNode (m : MutableGraph N E) (i : Nat) : MutableGraph N E :=
  { m with
    nodes := m.nodes.filter (fun q => q.1 != i),
    edges := m.edges.filter (fun q => q.2.source != i && q.2.target != i) }

/-- Modelled from the spec: `nodeCount`. -/
def nodeCount (g : Graph N E) : Nat := g.nodes.length

/-- Modelled from the spec: `edgeCount`. -/
def edgeCount (g : Graph N E) : Nat := g.edges.length

/-- Modelled from the spec: `getNode` returns an optional payload, absent for
unknown or removed indices. -/
def getNode (g : Graph N E) (i : Nat) : Option N :=
  (g.nodes.find? (fun q => q.1 == i)).map (fun q => q.2)

/-- Modelled from the spec: `getEdge` returns an optional edge record, absent
for unknown or removed indices. -/
def getEdge (g : Graph N E) (i : Nat) : Option (EdgeData E) :=
  (g.edges.find? (fun q => q.1 == i)).map (fun q => q.2)

/-- The set of live node indices of a snapshot. -/
def nodeIds (g : Graph N E) : Finset Nat :=
  (g.nodes.map Prod.fst).toFinset

/-- Modelled from the spec: the directed successor view of the edge store.
Every edge contributes its (source, target, payload) triple; for undirected
graphs the edge is traversable from either endpoint, so the flipped triple is
contributed as well. -/
def dedges (g : Graph N E) : List (Nat × Nat × E) :=
  g.edges.flatMap (fun q =>
    (q.2.source, q.2.target, q.2.payload) ::
      (if g.kind == Kind.undirected then [(q.2.target, q.2.source, q.2.payload)] else []))

/-- Adjacency test: is there an edge traversable from `u` to `v`? -/
def adjB (g : Graph N E) (u v : Nat) : Bool :=
  (dedges g).any (fun e => e.1 == u && e.2.1 == v)

/-- Modelled from the spec: per-node outgoing incident-edge indices (for
undirected graphs an edge is incident from either endpoint). -/
def outgoing (g : Graph N E) (i : Nat) : List Nat :=
  (g.edges.filter
    (fun q => q.2.source == i || (g.kind == Kind.undirected && q.2.target == i))).map Prod.fst

/-- Modelled from the spec: per-node incoming incident-edge indices; for
undirected graphs `incoming` mirrors `outgoing`. -/
def incoming (g : Graph N E) (i : Nat) : List Nat :=
  (g.edges.filter
    (fun q => q.2.target == i || (g.kind == Kind.undirected && q.2.source == i))).map Prod.fst

/-- Spec invariant, as a predicate: every edge's endpoints exist in `nodes`.
Graphs built through the mutation interface satisfy it. -/
def WF (g : Graph N E) : Prop :=
  ∀ q ∈ g.edges, q.2.source ∈ nodeIds g ∧ q.2.target ∈ nodeIds g

instance (g : Graph N E) : Decidable (WF g) := by
  unfold WF; infer_instance

/-- Modelled from the spec: `reverse(graph)` swaps source and target on every
edge for directed graphs and is a no-op for undirected graphs. -/
def reverse (g : Graph N E) : Graph N E :=
  match g.kind with
  | Kind.directed =>
      { g with edges := g.edges.map (fun q => (q.1, ⟨q.2.target, q.2.source, q.2.payload⟩)) }
  | Kind.undirected => g

/-- A store of snapshots: the system state in which mutation scopes run.  A
graph value held by a reader is a position in the store.  Used to state the
frame property of `withMutations` (the input snapshot is unaffected). -/
def mutateRef (store : List (Graph N E)) (r : Nat)
    (body : MutableGraph N E → MutableGraph N E) : List (Graph N E) × Nat :=
  match store[r]? with
  | none => (store, r)
  | some g => (store ++ [mutate g body], store.length)

/-- A single addition operation, for stating the scope-versus-single-edits
equivalence. -/
inductive Op (N E : Type)
| addNode (payload : N)
| addEdge (source target : Nat) (payload : E)

/-- Apply one addition inside a scope. -/
def applyOp (m : MutableGraph N E) : Op N E → MutableGraph N E
| Op.addNode p => (addNode m p).1
| Op.addEdge s t p => (addEdge m s t p).1

/-- Apply a whole sequence of additions inside one scope. -/
def applyOps (m : MutableGraph N E) (ops : List (Op N E)) : MutableGraph N E :=
  ops.foldl applyOp m

/-- Apply one addition as an individual single-operation edit: a one-edit
mutation scope producing a successor snapshot. -/
def applyOpG (g : Graph N E) (op : Op N E) : Graph N E :=
  mutate g (fun m => applyOp m op)

/-- A mutation operation including removals, for stating the index-allocation
invariants over a lineage of snapshots. -/
inductive MOp (N E : Type)
| addNode (payload : N)
| addEdge (source target : Nat) (payload : E)
| removeNode (index : Nat)
| removeEdge (index : Nat)

/-- Apply one mutation operation to a working copy. -/
def applyMOp (m : MutableGraph N E) : MOp N E → MutableGraph N E
| MOp.addNode p => (addNode m p).1
| MOp.addEdge s t p => (addEdge m s t p).1
| MOp.removeNode i => removeNode m i
| MOp.removeEdge i => removeEdge m i

/-- Run a lineage: apply a sequence of mutation operations starting from the
empty graph of the given kind. -/
def runOps (k : Kind) (ops : List (MOp N E)) : MutableGraph N E :=
  ops.foldl applyMOp (beginMutation (empty k))

/-- The number of `addNode` operations in a lineage. -/
def countAddNodes (ops : List (MOp N E)) : Nat :=
  (ops.filter (fun op => match op with | MOp.addNode _ => true | _ => false)).length

/-- A walk in the graph: a list of traversable edge triples (from `dedges`)
linking `u` to `v`. -/
def IsEWalk (g : Graph N E) : Nat → List (Nat × Nat × E) → Nat → Prop
| u, [], v => u = v
| u, e :: es, v => e ∈ dedges g ∧ e.1 = u ∧ IsEWalk g e.2.1 es v

instance instDecIsEWalk [DecidableEq E] (g : Graph N E) :
    ∀ (u : Nat) (es : List (Nat × Nat × E)) (v : Nat), Decidable (IsEWalk g u es v)
| _, [], _ => by unfold IsEWalk; infer_instance
| u, e :: es, v =>
    have : Decidable (IsEWalk g e.2.1 es v) := instDecIsEWalk g e.2.1 es v
    by unfold IsEWalk; infer_instance

/-- Reachability: a (possibly empty) walk from `u` to `v` exists. -/
def Reaches (g : Graph N E) (u v : Nat) : Prop :=
  ∃ es, IsEWalk g u es v

/-- A directed cycle exists: some node carries a nonempty closed walk. -/
def HasCycle (g : Graph N E) : Prop :=
  ∃ u es, es ≠ [] ∧ IsEWalk g u es u

/-- Kahn step: `n` has no incoming edge from inside the remaining set `S`. -/
def noIncoming (g : Graph N E) (S : Finset Nat) (n : Nat) : Bool :=
  (dedges g).all (fun e => !(decide (e.1 ∈ S) && e.2.1 == n))

/-- The zero-incoming-degree nodes of the remaining set. -/
def kahnCandidates (g : Graph N E) (S : Finset Nat) : Finset Nat :=
  S.filter (fun n => noIncoming g S n = true)

/-- Modelled from the spec: Kahn's algorithm breaks ties by lowest index. -/
def kahnPick (g : Graph N E) (S : Finset Nat) : Option Nat :=
  if h : (kahnCandidates g S).Nonempty then some ((kahnCandidates g S).min' h) else none

/-- Modelled from the spec: Kahn's algorithm — repeatedly remove a
zero-incoming-degree node (lowest index first); fail if stuck on a nonempty
remainder. -/
def topoAux (g : Graph N E) (S : Finset Nat) : Option (List Nat) :=
  if S = ∅ then some []
  else
    match h : kahnPick g S with
    | none => none
    | some n =>
        match topoAux g (S.erase n) with
        | none => none
        | some l => some (n :: l)
termination_by S.card
decreasing_by
  refine Finset.card_erase_lt_of_mem ?_
  have hmem : n ∈ kahnCandidates g S := by
    unfold kahnPick at h
    split at h
    · exact (Option.some.injEq _ _ ▸ h) ▸ Finset.min'_mem _ _
    · exact absurd h (by simp)
  exact Finset.mem_of_mem_filter n hmem

/-- Modelled from the spec: `topologicalOrder(G)`, `none` signalling
`CyclicGraph`. -/
def topo (g : Graph N E) : Option (List Nat) :=
  topoAux g (nodeIds g)

/-- Strict ordering of two nodes within an output list. -/
def Before (l : List Nat) (u v : Nat) : Prop :=
  u ∈ l ∧ v ∈ l ∧ l.indexOf u < l.indexOf v

/-- The nodes directly reachable from the set `R` along one traversable
edge. -/
def succsIn (g : Graph N E) (R : Finset Nat) : Finset Nat :=
  (nodeIds g).filter (fun v => (dedges g).any (fun e => decide (e.1 ∈ R) && e.2.1 == v))

/-- One closure step of the reachable set. -/
def stepR (g : Graph N E) (R : Finset Nat) : Finset Nat :=
  R ∪ succsIn g R

/-- The set of nodes reachable from `u` along at least one edge, computed by
saturating the one-step closure. -/
def reachSet (g : Graph N E) (u : Nat) : Finset Nat :=
  (fun R => stepR g R)^[(nodeIds g).card] (succsIn g {u})

/-- Modelled from the spec: `isAcyclic(G)` decides the observable property —
whether the graph has a directed cycle.  (The spec realises the decision by a
three-color DFS; the observable success condition is the same.) -/
def isAcyclic (g : Graph N E) : Bool :=
  decide (∀ u ∈ nodeIds g, u ∉ reachSet g u)

/-- State of the best-first shortest-path search: tentative distances,
predecessor links for path reconstruction, and the settled set. -/
structure SPState (W : Type) where
  dist : Nat → Option W
  pred : Nat → Option Nat
  settled : Finset Nat

variable {W : Type} [LinearOrderedAddCommMonoid W]

/-- The frontier: live nodes with a tentative distance, not yet settled. -/
def frontier (g : Graph N E) (st : SPState W) : Finset Nat :=
  (nodeIds g).filter (fun v => v ∉ st.settled ∧ (st.dist v).isSome = true)

/-- The priority of a frontier node: tentative distance plus heuristic
estimate (zero heuristic for Dijkstra). -/
def priorityOf (st : SPState W) (hfun : Nat → W) (v : Nat) : W :=
  (st.dist v).getD 0 + hfun v

/-- The frontier as a list, in node-store order. -/
def frontierList (g : Graph N E) (st : SPState W) : List Nat :=
  (g.nodes.map Prod.fst).filter (fun v => decide (v ∉ st.settled) && (st.dist v).isSome)

/-- One comparison step of the frontier minimum search. -/
def pickStep (st : SPState W) (hfun : Nat → W) (best : Option Nat) (v : Nat) :
    Option Nat :=
  match best with
  | none => some v
  | some b =>
      if priorityOf st hfun v < priorityOf st hfun b ∨
          (priorityOf st hfun v = priorityOf st hfun b ∧ v < b) then some v
      else some b

/-- Pop the frontier node of minimal priority, ties broken by lowest index. -/
def pickMin (g : Graph N E) (st : SPState W) (hfun : Nat → W) : Option Nat :=
  (frontierList g st).foldl (pickStep st hfun) none

/-- The traversable edges leaving `u`. -/
def outEdges (g : Graph N E) (u : Nat) : List (Nat × Nat × E) :=
  (dedges g).filter (fun e => e.1 == u)

/-- Relax one traversable edge out of `u`, whose settled distance is `du`. -/
def relaxEdge (cost : E → W) (u : Nat) (du : W) (st : SPState W)
    (e : Nat × Nat × E) : SPState W :=
  match st.dist e.2.1 with
  | none =>
      { st with
        dist := fun x => if x = e.2.1 then some (du + cost e.2.2) else st.dist x,
        pred := fun x => if x = e.2.1 then some u else st.pred x }
  | some dv =>
      if du + cost e.2.2 < dv then
        { st with
          dist := fun x => if x = e.2.1 then some (du + cost e.2.2) else st.dist x,
          pred := fun x => if x = e.2.1 then some u else st.pred x }
      else st

/-- Relax every traversable edge leaving `u`. -/
def relaxFrom (g : Graph N E) (cost : E → W) (u : Nat) (du : W)
    (st : SPState W) : SPState W :=
  (outEdges g u).foldl (relaxEdge cost u du) st

/-- Reconstruct the node path from `source` to `v` by following predecessor
links. -/
def buildPath (pred : Nat → Option Nat) (source : Nat) : Nat → Nat → List Nat
| 0, v => [v]
| fuel + 1, v =>
    if v = source then [v]
    else
      match pred v with
      | none => [v]
      | some u => buildPath pred source fuel u ++ [v]

/-- The best-first search loop shared by Dijkstra and A*: pop the minimal
frontier node, emit the result record if it is the target, otherwise settle
it and relax its outgoing edges.  Structural fuel makes the recursion
elementary; callers supply enough fuel to settle every node. -/
def spLoop (g : Graph N E) (cost : E → W) (hfun : Nat → W) (source target : Nat) :
    Nat → SPState W → Option (W × List Nat)
| 0, _ => none
| fuel + 1, st =>
    match pickMin g st hfun with
    | none => none
    | some u =>
        match st.dist u with
        | none => none
        | some du =>
            if u = target then some (du, buildPath st.pred source (nodeCount g) target)
            else spLoop g cost hfun source target fuel
              (relaxFrom g cost u du { st with settled := insert u st.settled })

/-- The initial search state: the source at distance zero. -/
def spInit (source : Nat) : SPState W :=
  ⟨fun v => if v = source then some 0 else none, fun _ => none, ∅⟩

/-- Modelled from the spec: `Dijkstra(source, target, cost)`; returns
`{ distance, path }` or absent if unreachable. -/
def dijkstra (g : Graph N E) (source target : Nat) (cost : E → W) :
    Option (W × List Nat) :=
  spLoop g cost (fun _ => 0) source target ((nodeIds g).card + 1) (spInit source)

/-- Modelled from the spec: `A*(source, target, cost, heuristic)`; with a zero
heuristic it degrades to Dijkstra. -/
def astar (g : Graph N E) (source target : Nat) (cost : E → W)
    (heuristic : N → N → W) : Option (W × List Nat) :=
  spLoop g cost
    (fun v =>
      match getNode g v, getNode g target with
      | some a, some b => heuristic a b
      | _, _ => 0)
    source target ((nodeIds g).card + 1) (spInit source)

/-- Modelled from the spec: the bipartite check over one edge set — every
edge must join a member of the part to a non-member. -/
def properColoringL (g : Graph N E) (S : List Nat) : Bool :=
  g.edges.all (fun q => decide (q.2.source ∈ S) != decide (q.2.target ∈ S))

/-- Modelled from the spec: the bipartite check returns a node→{0,1}
coloring (here: the set of nodes colored 1, as a sublist of the node store)
on success, or signals `OddCycle` (here: `none`) when no proper two-coloring
exists; the spec realises the search by BFS two-coloring with the same
observable success condition. -/
def bipartiteColoring (g : Graph N E) : Option (List Nat) :=
  (g.nodes.map Prod.fst).sublists.find? (fun S => properColoringL g S)

/-- Modelled from the spec: `isBipartite`. -/
def isBipartite (g : Graph N E) : Bool :=
  (bipartiteColoring g).isSome

/-- A predicate two-coloring that every edge crosses. -/
def ProperPred (g : Graph N E) (P : Nat → Prop) : Prop :=
  ∀ q ∈ g.edges, (P q.2.source ↔ ¬ P q.2.target)

/-- The flipped orientation of a traversable edge triple. -/
def eflip (e : Nat × Nat × E) : Nat × Nat × E := (e.2.1, e.1, e.2.2)

/-- The node sequence visited by a walk. -/
def walkNodes (u : Nat) (es : List (Nat × Nat × E)) : List Nat :=
  u :: es.map (fun e => e.2.1)

/-- The i-th node visited by a walk. -/
def nodeAt (u : Nat) (es : List (Nat × Nat × E)) (i : Nat) : Nat :=
  (walkNodes u es).getD i u

/-- No closed walk of odd length exists. -/
def NoOddClosedWalk (g : Graph N E) : Prop :=
  ∀ u es, IsEWalk g u es u → ¬ Odd es.length

/-- An odd cycle: a closed walk of odd length whose nodes, except for the
repeated endpoint, are pairwise distinct. -/
def HasOddCycle (g : Graph N E) : Prop :=
  ∃ u es, IsEWalk g u es u ∧ Odd es.length ∧ (walkNodes u es).dropLast.Nodup

/-- The cost of a walk: the sum of the edge costs along it. -/
def ewalkCost (cost : E → W) (es : List (Nat × Nat × E)) : W :=
  (es.map (fun e => cost e.2.2)).sum

/-- A negative-sum cycle reachable from `source`. -/
def NegCycleReachable (g : Graph N E) (source : Nat) (cost : E → W) : Prop :=
  ∃ u es₁ es₂, IsEWalk g source es₁ u ∧ IsEWalk g u es₂ u ∧ es₂ ≠ [] ∧
    ewalkCost cost es₂ < 0

/-- Result type of Bellman-Ford: either a `NegativeCycle` signal or an
optional `{ distance, path }` record. -/
inductive BFResult (W : Type)
| negativeCycle
| result (r : Option (W × List Nat))

/-- State of the Bellman-Ford relaxation passes. -/
structure BFState (W : Type) where
  dist : Nat → Option W
  pred : Nat → Option Nat

/-- Relax one traversable edge (Bellman-Ford). -/
def bfRelaxEdge (cost : E → W) (st : BFState W) (e : Nat × Nat × E) : BFState W :=
  match st.dist e.1 with
  | none => st
  | some ds =>
      match st.dist e.2.1 with
      | none =>
          ⟨fun x => if x = e.2.1 then some (ds + cost e.2.2) else st.dist x,
            fun x => if x = e.2.1 then some e.1 else st.pred x⟩
      | some dt =>
          if ds + cost e.2.2 < dt then
            ⟨fun x => if x = e.2.1 then some (ds + cost e.2.2) else st.dist x,
              fun x => if x = e.2.1 then some e.1 else st.pred x⟩
          else st

/-- One full relaxation pass over every traversable edge. -/
def bfPass (g : Graph N E) (cost : E → W) (st : BFState W) : BFState W :=
  (dedges g).foldl (bfRelaxEdge cost) st

/-- The verification check: is some traversable edge still relaxable? -/
def bfRelaxable (g : Graph N E) (cost : E → W) (st : BFState W) : Bool :=
  (dedges g).any (fun e =>
    match st.dist e.1 with
    | none => false
    | some ds =>
        match st.dist e.2.1 with
        | none => true
        | some dt => decide (ds + cost e.2.2 < dt))

/-- The state after the V−1 relaxation passes from the source. -/
def bfFinal (g : Graph N E) (source : Nat) (cost : E → W) : BFState W :=
  (fun st => bfPass g cost st)^[nodeCount g - 1]
    ⟨fun v => if v = source then some 0 else none, fun _ => none⟩

/-- Modelled from the spec: `Bellman-Ford(source, target, cost)` — V−1
relaxation passes plus one verification pass; a further-relaxable edge after
that signals `NegativeCycle` instead of returning a distance. -/
def bellmanFord (g : Graph N E) (source target : Nat) (cost : E → W) : BFResult W :=
  if bfRelaxable g cost (bfFinal g source cost) then BFResult.negativeCycle
  else
    match (bfFinal g source cost).dist target with
    | none => BFResult.result none
    | some d =>
        BFResult.result
          (some (d, buildPath (bfFinal g source cost).pred source (nodeCount g) target))

/-- The search-loop invariant: every tentative distance marks a node reachable
from the source and lying in the graph, every settled node has all of its
successors discovered, the source is discovered, and the target is never
settled (the loop returns before settling it). -/
structure SPInv (g : Graph N E) (source target : Nat) (st : SPState W) : Prop where
  reach : ∀ v, (st.dist v).isSome = true → Reaches g source v
  closed : ∀ u ∈ st.settled, ∀ e ∈ dedges g, e.1 = u → (st.dist e.2.1).isSome = true
  dom : ∀ v, (st.dist v).isSome = true → v ∈ nodeIds g
  src : (st.dist source).isSome = true
  tns : target ∉ st.settled

end EG

/-!
## The cart-recommendation engine (src/cart-recommendation.ts)

The recommendation engine itself is part of the repository source, so the
definitions below are translated directly from `src/cart-recommendation.ts`
(datasets, product-relationship graph construction, and
`generateRecommendations`).  Embedding conventions: JS `number` is ℚ;
a JS `Map` is an insertion-ordered association list (`set` updates in place,
new keys append, iteration follows insertion order); a JS `Set` built from a
list is membership in that list; `Array.prototype.findIndex` returning `-1`
is `Option`; `Math.round` is `⌊x + 1/2⌋`; the stable `Array.prototype.sort`
with comparator `(a, b) => b.score - a.score` is stable insertion sort by
`scoreOrder` (stable sorts under the same total preorder agree).  The graph
calls (`Graph.mutate`, `addNode`, `addEdge`, `Graph.dijkstra`) are the
spec-modelled `EG` operations.
-/

namespace CartRec

/-- Translated from source: the `Product` data model, restricted to the fields
that the graph construction and `generateRecommendations` read (`id`, `name`,
`category`, `price`, `brand`, `inStock`, `rating`, `reviewCount`,
`seasonal`; the optional `seasonal` defaults to `false` where absent, matching
JS truthiness of `undefined`). -/
structure Product where
  id : String
  name : String
  category : String
  price : ℚ
  brand : String
  inStock : Bool
  rating : ℚ
  reviewCount : ℚ
  seasonal : Bool
  deriving DecidableEq

/-- Translated from source: the `Customer` data model, restricted to the
fields `generateRecommendations` reads. -/
structure Customer where
  id : String
  segment : String
  avgOrderValue : ℚ
  preferredCategories : List String
  deriving DecidableEq

/-- Translated from source: a `Purchase`, restricted to `customerId` and the
`productId`s of its line items (the only purchase data the engine reads). -/
structure Purchase where
  customerId : String
  products : List String
  deriving DecidableEq

/-- Translated from source: the edge-payload relationship type. -/
inductive RelType
  | co_purchase
  | similar
  | category
  | complementary
  deriving DecidableEq

/-- Translated from source: the edge payload `{ weight, type }`. -/
structure RelEdge where
  weight : ℚ
  type : RelType
  deriving DecidableEq

/-- Translated from source: the `RecommendationScore` record. -/
structure RecommendationScore where
  productId : String
  score : ℚ
  reason : String
  confidence : ℚ
  deriving DecidableEq

/-- Translated from source: the product catalog (31 products). -/
def products : List Product := [
  { id := "macbook-pro-16", name := "MacBook Pro 16-inch", category := "Electronics", price := 2499, brand := "Apple",
    inStock := true, rating := 4.8, reviewCount := 1247, seasonal := false },
  { id := "dell-xps-13", name := "Dell XPS 13", category := "Electronics", price := 1299, brand := "Dell",
    inStock := true, rating := 4.5, reviewCount := 892, seasonal := false },
  { id := "ipad-pro-12", name := "iPad Pro 12.9-inch", category := "Electronics", price := 1099, brand := "Apple",
    inStock := true, rating := 4.7, reviewCount := 2156, seasonal := false },
  { id := "airpods-pro", name := "AirPods Pro", category := "Electronics", price := 249, brand := "Apple",
    inStock := true, rating := 4.6, reviewCount := 15432, seasonal := false },
  { id := "sony-wh-1000xm5", name := "Sony WH-1000XM5", category := "Electronics", price := 399, brand := "Sony",
    inStock := true, rating := 4.5, reviewCount := 3456, seasonal := false },
  { id := "logitech-mx-master-3", name := "Logitech MX Master 3S", category := "Electronics", price := 99, brand := "Logitech",
    inStock := true, rating := 4.4, reviewCount := 2834, seasonal := false },
  { id := "nespresso-vertuo", name := "Nespresso Vertuo Coffee Maker", category := "Home & Garden", price := 199, brand := "Nespresso",
    inStock := true, rating := 4.3, reviewCount := 5678, seasonal := false },
  { id := "dyson-v15", name := "Dyson V15 Detect", category := "Home & Garden", price := 749, brand := "Dyson",
    inStock := true, rating := 4.6, reviewCount := 3456, seasonal := false },
  { id := "instant-pot-8qt", name := "Instant Pot Duo 8QT", category := "Home & Garden", price := 89, brand := "Instant Pot",
    inStock := true, rating := 4.7, reviewCount := 45678, seasonal := false },
  { id := "kitchenaid-mixer", name := "KitchenAid Stand Mixer", category := "Home & Garden", price := 379, brand := "KitchenAid",
    inStock := true, rating := 4.8, reviewCount := 8923, seasonal := false },
  { id := "roomba-i7", name := "iRobot Roomba i7+", category := "Home & Garden", price := 1099, brand := "iRobot",
    inStock := true, rating := 4.4, reviewCount := 5673, seasonal := false },
  { id := "nike-air-max", name := "Nike Air Max 270", category := "Fashion", price := 150, brand := "Nike",
    inStock := true, rating := 4.3, reviewCount := 12345, seasonal := false },
  { id := "levi-501", name := "Levi\x27s 501 Original Jeans", category := "Fashion", price := 89, brand := "Levi\x27s",
    inStock := true, rating := 4.4, reviewCount := 23456, seasonal := false },
  { id := "patagonia-jacket", name := "Patagonia Better Sweater Jacket", category := "Fashion", price := 159, brand := "Patagonia",
    inStock := true, rating := 4.6, reviewCount := 7890, seasonal := false },
  { id := "ray-ban-sunglasses", name := "Ray-Ban Aviator Classic", category := "Fashion", price := 153, brand := "Ray-Ban",
    inStock := true, rating := 4.5, reviewCount := 15678, seasonal := false },
  { id := "peloton-bike", name := "Peloton Bike", category := "Sports & Outdoors", price := 2495, brand := "Peloton",
    inStock := false, rating := 4.2, reviewCount := 3456, seasonal := false },
  { id := "yeti-cooler", name := "Yeti Tundra 65 Cooler", category := "Sports & Outdoors", price := 399, brand := "Yeti",
    inStock := true, rating := 4.7, reviewCount := 9876, seasonal := false },
  { id := "garmin-fenix-7", name := "Garmin Fenix 7", category := "Sports & Outdoors", price := 699, brand := "Garmin",
    inStock := true, rating := 4.5, reviewCount := 4567, seasonal := false },
  { id := "patagonia-backpack", name := "Patagonia Black Hole 40L", category := "Sports & Outdoors", price := 159, brand := "Patagonia",
    inStock := true, rating := 4.8, reviewCount := 8765, seasonal := false },
  { id := "kindle-paperwhite", name := "Amazon Kindle Paperwhite", category := "Books & Media", price := 139, brand := "Amazon",
    inStock := true, rating := 4.6, reviewCount := 34567, seasonal := false },
  { id := "atomic-habits", name := "Atomic Habits", category := "Books & Media", price := 16, brand := "Random House",
    inStock := true, rating := 4.8, reviewCount := 56789, seasonal := false },
  { id := "spotify-premium", name := "Spotify Premium (Annual)", category := "Books & Media", price := 99, brand := "Spotify",
    inStock := true, rating := 4.4, reviewCount := 123456, seasonal := true },
  { id := "dyson-airwrap", name := "Dyson Airwrap", category := "Beauty & Personal Care", price := 599, brand := "Dyson",
    inStock := true, rating := 4.1, reviewCount := 6789, seasonal := false },
  { id := "neutrogena-moisturizer", name := "Neutrogena Hydro Boost", category := "Beauty & Personal Care", price := 19, brand := "Neutrogena",
    inStock := true, rating := 4.3, reviewCount := 23456, seasonal := false },
  { id := "oral-b-electric", name := "Oral-B iO Series 9", category := "Beauty & Personal Care", price := 299, brand := "Oral-B",
    inStock := true, rating := 4.5, reviewCount := 7890, seasonal := false },
  { id := "lego-creator-3in1", name := "LEGO Creator 3-in-1 Deep Sea Creatures", category := "Toys & Games", price := 99, brand := "LEGO",
    inStock := true, rating := 4.7, reviewCount := 4567, seasonal := false },
  { id := "nintendo-switch-oled", name := "Nintendo Switch OLED", category := "Toys & Games", price := 349, brand := "Nintendo",
    inStock := true, rating := 4.6, reviewCount := 12345, seasonal := false },
  { id := "anker-car-jump", name := "Anker PowerDrive 2", category := "Automotive", price := 59, brand := "Anker",
    inStock := true, rating := 4.4, reviewCount := 5678, seasonal := false },
  { id := "meguiars-wash", name := "Meguiar\x27s Whole Car Air ReFresh", category := "Automotive", price := 79, brand := "Meguiar\x27s",
    inStock := true, rating := 4.5, reviewCount := 3456, seasonal := false },
  { id := "standing-desk", name := "Fully Jarvis Standing Desk", category := "Office Supplies", price := 999, brand := "Fully",
    inStock := true, rating := 4.6, reviewCount := 2345, seasonal := false },
  { id := "monitor-4k", name := "LG 27UL950-W 4K Monitor", category := "Office Supplies", price := 699, brand := "LG",
    inStock := true, rating := 4.5, reviewCount := 3456, seasonal := false }
]

/-- Translated from source: the customer base (10 customers). -/
def customers : List Customer := [
  { id := "john-tech", segment := "premium", avgOrderValue := 670.43,
    preferredCategories := ["Electronics", "Books & Media"] },
  { id := "sarah-home", segment := "regular", avgOrderValue := 270,
    preferredCategories := ["Home & Garden", "Fashion"] },
  { id := "mike-gamer", segment := "vip", avgOrderValue := 639,
    preferredCategories := ["Electronics", "Toys & Games"] },
  { id := "emily-health", segment := "premium", avgOrderValue := 497,
    preferredCategories := ["Beauty & Personal Care", "Sports & Outdoors"] },
  { id := "david-budget", segment := "budget", avgOrderValue := 106,
    preferredCategories := ["Books & Media", "Office Supplies"] },
  { id := "lisa-luxury", segment := "vip", avgOrderValue := 681,
    preferredCategories := ["Fashion", "Home & Garden", "Beauty & Personal Care"] },
  { id := "alex-student", segment := "budget", avgOrderValue := 84,
    preferredCategories := ["Books & Media", "Electronics"] },
  { id := "rachel-pro", segment := "premium", avgOrderValue := 439,
    preferredCategories := ["Sports & Outdoors", "Electronics"] },
  { id := "tom-retiree", segment := "regular", avgOrderValue := 239,
    preferredCategories := ["Home & Garden", "Books & Media"] },
  { id := "jessica-fashion", segment := "premium", avgOrderValue := 452,
    preferredCategories := ["Fashion", "Beauty & Personal Care"] }
]

/-- Translated from source: the purchase history (15 orders, keeping customer
and line-item product ids). -/
def purchases : List Purchase := [
  { customerId := "john-tech", products := ["macbook-pro-16"] },
  { customerId := "john-tech", products := ["airpods-pro", "logitech-mx-master-3"] },
  { customerId := "john-tech", products := ["kindle-paperwhite", "atomic-habits"] },
  { customerId := "sarah-home", products := ["nespresso-vertuo", "instant-pot-8qt"] },
  { customerId := "sarah-home", products := ["kitchenaid-mixer", "patagonia-jacket"] },
  { customerId := "mike-gamer", products := ["nintendo-switch-oled", "nike-air-max"] },
  { customerId := "mike-gamer", products := ["sony-wh-1000xm5", "dyson-v15"] },
  { customerId := "emily-health", products := ["dyson-airwrap", "neutrogena-moisturizer"] },
  { customerId := "emily-health", products := ["garmin-fenix-7", "patagonia-backpack"] },
  { customerId := "david-budget", products := ["atomic-habits", "kindle-paperwhite"] },
  { customerId := "lisa-luxury", products := ["ray-ban-sunglasses", "patagonia-jacket", "levi-501"] },
  { customerId := "alex-student", products := ["dell-xps-13", "atomic-habits"] },
  { customerId := "rachel-pro", products := ["yeti-cooler", "garmin-fenix-7"] },
  { customerId := "tom-retiree", products := ["kindle-paperwhite", "nespresso-vertuo"] },
  { customerId := "jessica-fashion", products := ["nike-air-max", "ray-ban-sunglasses", "neutrogena-moisturizer"] }
]

/-- Translated from source: the complementary-product rules (16 rules). -/
def complementaryRules : List (String × String × ℚ) := [
  ("macbook-pro-16", "airpods-pro", 8),
  ("macbook-pro-16", "logitech-mx-master-3", 7),
  ("dell-xps-13", "logitech-mx-master-3", 6),
  ("ipad-pro-12", "airpods-pro", 9),
  ("nintendo-switch-oled", "yeti-cooler", 5),
  ("nespresso-vertuo", "instant-pot-8qt", 6),
  ("instant-pot-8qt", "kitchenaid-mixer", 7),
  ("kitchenaid-mixer", "nespresso-vertuo", 5),
  ("dyson-airwrap", "neutrogena-moisturizer", 8),
  ("neutrogena-moisturizer", "oral-b-electric", 6),
  ("garmin-fenix-7", "patagonia-backpack", 9),
  ("patagonia-backpack", "yeti-cooler", 7),
  ("yeti-cooler", "patagonia-jacket", 6),
  ("standing-desk", "monitor-4k", 8),
  ("monitor-4k", "logitech-mx-master-3", 6),
  ("dell-xps-13", "monitor-4k", 7)
]

/-- Ordered pairs `(l[i], l[j])` with `i < j`, mirroring the source's nested
index loops over a list. -/
def pairsAux {α : Type} : List α → List (α × α)
  | [] => []
  | x :: xs => xs.map (fun y => (x, y)) ++ pairsAux xs

/-- Translated from source: `prod1Counts.set(prod2, (prod1Counts.get(prod2) || 0) + 1)`
on an insertion-ordered map — update in place if the key is present, else
append with count 1. -/
def bumpInner (inner : List (String × Nat)) (k : String) : List (String × Nat) :=
  if inner.any (fun q => q.1 == k) then
    inner.map (fun q => if q.1 == k then (q.1, q.2 + 1) else q)
  else inner ++ [(k, 1)]

/-- Translated from source: the outer `coPurchaseCounts` map update for one
ordered pair of co-purchased product ids. -/
def bumpOuter (outer : List (String × List (String × Nat))) (k1 k2 : String) :
    List (String × List (String × Nat)) :=
  if outer.any (fun q => q.1 == k1) then
    outer.map (fun q => if q.1 == k1 then (q.1, bumpInner q.2 k2) else q)
  else outer ++ [(k1, [(k2, 1)])]

/-- Translated from source: `coPurchaseCounts`, counting how often each
ordered pair of products was bought in the same order. -/
def coPurchaseCounts : List (String × List (String × Nat)) :=
  purchases.foldl
    (fun acc purchase =>
      (pairsAux purchase.products).foldl (fun a pr => bumpOuter a pr.1 pr.2) acc)
    []

/-- Translated from source: the node-map lookup `getNode`.  Nodes are added in
catalog order starting from index 0, so a product's node index is its catalog
position.  (The source lookup throws on a missing id; every id looked up
during construction is in the catalog, so the lookup is total here.) -/
def nodeIdx (pid : String) : Nat :=
  products.findIdx (fun p => p.id == pid)

/-- Translated from source: the co-purchase edges, `weight = min(count * 2, 10)`,
in map-iteration (insertion) order. -/
def coPurchaseEdges : List (Nat × Nat × RelEdge) :=
  coPurchaseCounts.flatMap (fun pr =>
    pr.2.map (fun pc =>
      (nodeIdx pr.1, nodeIdx pc.1, ⟨min ((pc.2 : ℚ) * 2) 10, RelType.co_purchase⟩)))

/-- Translated from source: the category keys of `categoryProducts` in
first-occurrence (map insertion) order. -/
def categoriesInOrder : List String :=
  products.foldl (fun acc p => if acc.contains p.category then acc else acc ++ [p.category]) []

/-- Translated from source: the weight-1 category edges between every ordered
pair of same-category products. -/
def categoryEdges : List (Nat × Nat × RelEdge) :=
  categoriesInOrder.flatMap (fun cat =>
    (pairsAux (products.filter (fun p => p.category == cat))).map (fun pr =>
      (nodeIdx pr.1.id, nodeIdx pr.2.id, ⟨1, RelType.category⟩)))

/-- Translated from source: the complementary edges; the source guards on both
ids being in the node map. -/
def complementaryEdges : List (Nat × Nat × RelEdge) :=
  (complementaryRules.filter (fun r =>
      products.any (fun p => p.id == r.1) && products.any (fun p => p.id == r.2.1))).map
    (fun r => (nodeIdx r.1, nodeIdx r.2.1, ⟨r.2.2, RelType.complementary⟩))

/-- Translated from source: the product-relationship graph — an undirected
graph built by one `Graph.mutate` that adds every product as a node and then
the co-purchase, category and complementary edges. -/
def productGraph : EG.Graph Product RelEdge :=
  EG.mutate (EG.undirected : EG.Graph Product RelEdge) (fun m =>
    (coPurchaseEdges ++ categoryEdges ++ complementaryEdges).foldl
      (fun m t => (EG.addEdge m t.1 t.2.1 t.2.2).1)
      (products.foldl (fun m p => (EG.addNode m p).1) m))

/-- Translated from source: the dijkstra cost callback — lower cost for
stronger co-purchase and complementary relationships, flat cost 10 otherwise. -/
def relCost (edgeData : RelEdge) : ℚ :=
  if edgeData.type = RelType.co_purchase then 11 - edgeData.weight
  else if edgeData.type = RelType.complementary then 6 - edgeData.weight / 2
  else 10

/-- Translated from source:
`Array.from(productGraph.nodes.values()).findIndex((p) => p.id === pid)`;
`none` stands for `-1`. -/
def findNodeByProductId (g : EG.Graph Product RelEdge) (pid : String) : Option Nat :=
  (g.nodes.map (fun q => q.2)).findIdx? (fun p => p.id == pid)

/-- Translated from source: one iteration of the co-purchase scoring loop over
the cart.  The accumulator is `(score, confidence, reasons)`.  When both node
indices exist and the dijkstra distance is below 5, the score gains
`max(0, 10 - distance * 2)`, the confidence is raised to at least `0.8`, and a
reason is recorded (a missing catalog name prints as `undefined` in JS). -/
def coStep (productId : String) (acc : ℚ × ℚ × List String) (cartProductId : String) :
    ℚ × ℚ × List String :=
  match findNodeByProductId productGraph cartProductId,
      findNodeByProductId productGraph productId with
  | some cartProductNode, some targetProductNode =>
      match EG.dijkstra productGraph cartProductNode targetProductNode relCost with
      | some r =>
          if r.1 < 5 then
            (acc.1 + max 0 (10 - r.1 * 2), max acc.2.1 0.8,
              acc.2.2 ++ ["Frequently bought with " ++
                (((products.find? (fun p => p.id == cartProductId)).map
                  (fun p => p.name)).getD "undefined")])
          else acc
      | none => acc
  | _, _ => acc

/-- Translated from source: scoring step 1 run over the whole cart, starting
from `score = 0`, `confidence = 0.5`, no reasons. -/
def coScore (cartProducts : List String) (productId : String) : ℚ × ℚ × List String :=
  cartProducts.foldl (coStep productId) (0, 0.5, [])

/-- Translated from source: scoring step 2 — `+3` if the product category is
among the customer's preferred categories. -/
def prefBonus (customer : Customer) (product : Product) : ℚ :=
  if product.category ∈ customer.preferredCategories then 3 else 0

/-- Translated from source: the reason recorded by scoring step 2. -/
def prefReasons (customer : Customer) (product : Product) (rs : List String) : List String :=
  if product.category ∈ customer.preferredCategories then
    rs ++ ["Matches your preferred category: " ++ product.category]
  else rs

/-- Translated from source: the confidence after steps 1 and 2 (step 2 raises
it to at least `0.7`; no later step touches it). -/
def confidenceOf (customer : Customer) (cartProducts : List String) (product : Product) : ℚ :=
  if product.category ∈ customer.preferredCategories then
    max (coScore cartProducts product.id).2.1 0.7
  else (coScore cartProducts product.id).2.1

/-- Translated from source: scoring step 3 —
`max(0, 5 - (|price - avgOrderValue| / avgOrderValue) * 10)`. -/
def priceScore (customer : Customer) (product : Product) : ℚ :=
  max 0 (5 - |product.price - customer.avgOrderValue| / customer.avgOrderValue * 10)

/-- Translated from source: scoring step 4 — the three segment bonuses. -/
def segmentBonus (customer : Customer) (product : Product) : ℚ :=
  (if customer.segment = "budget" ∧ product.price < 100 then 2 else 0) +
    (if customer.segment = "premium" ∧ product.price > 500 then 2 else 0) +
    (if customer.segment = "vip" ∧ product.rating > 4.5 then 2 else 0)

/-- Translated from source: scoring step 5 — `+1` for seasonal products. -/
def seasonalBonus (product : Product) : ℚ :=
  if product.seasonal then 1 else 0

/-- Translated from source: scoring step 6 —
`(rating - 4.0) * 2 + min(reviewCount / 1000, 3)`. -/
def ratingScore (product : Product) : ℚ :=
  (product.rating - 4.0) * 2 + min (product.reviewCount / 1000) 3

/-- Translated from source: the ids of every product the customer has already
purchased (the `purchasedProductIds` set). -/
def purchasedIds (customerId : String) : List String :=
  (purchases.filter (fun p => p.customerId == customerId)).flatMap (fun p => p.products)

/-- Translated from source: the brands of the customer's purchased products
(the `customerBrands` set; the source's `.filter(Boolean)` drops failed
catalog lookups, here `filterMap`). -/
def customerBrands (customerId : String) : List String :=
  (purchases.filter (fun p => p.customerId == customerId)).flatMap (fun p =>
    p.products.filterMap (fun pid =>
      (products.find? (fun q => q.id == pid)).map (fun q => q.brand)))

/-- Translated from source: scoring step 7 — `+2` brand loyalty bonus. -/
def brandBonus (customerId : String) (product : Product) : ℚ :=
  if product.brand ∈ customerBrands customerId then 2 else 0

/-- Translated from source: the reason recorded by scoring step 7. -/
def brandReasons (customerId : String) (product : Product) (rs : List String) : List String :=
  if product.brand ∈ customerBrands customerId then
    rs ++ ["Brand you\x27ve purchased before: " ++ product.brand]
  else rs

/-- Translated from source: the final raw score of one candidate product —
each `score +=` step contributes independently of the running total, so the
sequential accumulation is their sum. -/
def totalScore (customerId : String) (customer : Customer) (cartProducts : List String)
    (product : Product) : ℚ :=
  (coScore cartProducts product.id).1 + prefBonus customer product +
    priceScore customer product + segmentBonus customer product +
    seasonalBonus product + ratingScore product + brandBonus customerId product

/-- Translated from source: the reasons accumulated for one candidate product
(step 1 pushes, then step 2, then step 7). -/
def recReasons (customerId : String) (customer : Customer) (cartProducts : List String)
    (product : Product) : List String :=
  brandReasons customerId product
    (prefReasons customer product (coScore cartProducts product.id).2.2)

/-- Translated from source:
`reasons.length > 0 ? reasons[0] || "Popular product" : "Popular product"`
(the `||` also replaces an empty first reason, matching JS falsiness). -/
def reasonOf (rs : List String) : String :=
  match rs with
  | [] => "Popular product"
  | r :: _ => if r = "" then "Popular product" else r

/-- Translated from source: `Math.round(score * 100) / 100`; JS `Math.round`
rounds half toward positive infinity, i.e. `⌊x + 1/2⌋`. -/
def round2 (x : ℚ) : ℚ :=
  ((⌊x * 100 + 1/2⌋ : ℤ) : ℚ) / 100

/-- Translated from source: the loop body of `generateRecommendations` —
skip products that are in the cart (`recommendedProducts` is the set of cart
ids and is never extended), already purchased, or out of stock; otherwise
score the product and push a `RecommendationScore` when the score is
positive. -/
def recStep (customerId : String) (customer : Customer) (cartProducts : List String)
    (acc : List RecommendationScore) (product : Product) : List RecommendationScore :=
  if product.id ∈ cartProducts ∨ product.id ∈ purchasedIds customerId ∨
      product.inStock = false then acc
  else if 0 < totalScore customerId customer cartProducts product then
    acc ++ [{ productId := product.id,
              score := round2 (totalScore customerId customer cartProducts product),
              reason := reasonOf (recReasons customerId customer cartProducts product),
              confidence := confidenceOf customer cartProducts product }]
  else acc

/-- Translated from source: the sort order of `(a, b) => b.score - a.score`
— descending score. -/
def scoreOrder (a b : RecommendationScore) : Prop :=
  b.score ≤ a.score

instance : DecidableRel scoreOrder :=
  fun a b => inferInstanceAs (Decidable (b.score ≤ a.score))

instance : IsTotal RecommendationScore scoreOrder :=
  ⟨fun a b => le_total b.score a.score⟩

instance : IsTrans RecommendationScore scoreOrder :=
  ⟨fun _ _ _ h1 h2 => le_trans h2 h1⟩

/-- Translated from source: `generateRecommendations(customerId, cartProducts,
maxRecommendations)` — empty for an unknown customer; otherwise score every
catalog product, sort the kept records by descending score (stable insertion
sort models JS stable `sort`) and keep the first `maxRecommendations`. -/
def generateRecommendations (customerId : String) (cartProducts : List String)
    (maxRecommendations : Nat) : List RecommendationScore :=
  match customers.find? (fun c => c.id == customerId) with
  | none => []
  | some customer =>
      (List.insertionSort scoreOrder
        (products.foldl (recStep customerId customer cartProducts) [])).take
        maxRecommendations

/-- The guarantees of one emitted recommendation: positive (rounded) score,
not in the cart, not previously purchased by this customer, and naming an
in-stock catalog product. -/
def Recommendable (customerId : String) (cartProducts : List String)
    (r : RecommendationScore) : Prop :=
  0 < r.score ∧ r.productId ∉ cartProducts ∧ r.productId ∉ purchasedIds customerId ∧
    ∃ p ∈ products, p.id = r.productId ∧ p.inStock = true

end CartRec


namespace EG

variable {N E : Type}

theorem commit_beginMutation (g : Graph N E) : commit (beginMutation g) = g := rfl

theorem beginMutation_commit (m : MutableGraph N E) : beginMutation (commit m) = m := rfl

theorem mutate_applyOps_cons (g : Graph N E) (op : Op N E) (ops : List (Op N E)) :
    mutate g (fun m => applyOps m (op :: ops)) =
      mutate (applyOpG g op) (fun m => applyOps m ops) := rfl

theorem mutate_applyOps_eq_foldl (ops : List (Op N E)) (g : Graph N E) :
    mutate g (fun m => applyOps m ops) = ops.foldl applyOpG g := by
  induction ops generalizing g with
  | nil => rfl
  | cons op ops ih =>
      rw [mutate_applyOps_cons, List.foldl_cons]
      exact ih (applyOpG g op)

theorem map_edgeSwap_edgeSwap (l : List (Nat × EdgeData E)) :
    (l.map (fun q => (q.1, EdgeData.mk q.2.target q.2.source q.2.payload))).map
      (fun q => (q.1, EdgeData.mk q.2.target q.2.source q.2.payload)) = l := by
  induction l with
  | nil => rfl
  | cons q l ih => simp [ih]

theorem applyMOp_nextNode_le (m : MutableGraph N E) (op : MOp N E) :
    m.nextNode ≤ (applyMOp m op).nextNode := by
  cases op with
  | addNode p => exact Nat.le_succ _
  | addEdge s t p =>
      simp only [applyMOp, addEdge]
      split <;> exact Nat.le_refl _
  | removeNode i => exact Nat.le_refl _
  | removeEdge i => exact Nat.le_refl _

theorem applyMOp_nextEdge_le (m : MutableGraph N E) (op : MOp N E) :
    m.nextEdge ≤ (applyMOp m op).nextEdge := by
  cases op with
  | addNode p => exact Nat.le_refl _
  | addEdge s t p =>
      simp only [applyMOp, addEdge]
      split <;> simp
  | removeNode i => exact Nat.le_refl _
  | removeEdge i => exact Nat.le_refl _

theorem foldl_applyMOp_nextNode_le (ops : List (MOp N E)) (m : MutableGraph N E) :
    m.nextNode ≤ (ops.foldl applyMOp m).nextNode := by
  induction ops generalizing m with
  | nil => exact Nat.le_refl _
  | cons op ops ih => exact Nat.le_trans (applyMOp_nextNode_le m op) (ih (applyMOp m op))

theorem foldl_applyMOp_nextEdge_le (ops : List (MOp N E)) (m : MutableGraph N E) :
    m.nextEdge ≤ (ops.foldl applyMOp m).nextEdge := by
  induction ops generalizing m with
  | nil => exact Nat.le_refl _
  | cons op ops ih => exact Nat.le_trans (applyMOp_nextEdge_le m op) (ih (applyMOp m op))

/-- Allocation invariant: every stored key is below the allocator counter. -/
def AllocInv (m : MutableGraph N E) : Prop :=
  (∀ q ∈ m.nodes, q.1 < m.nextNode) ∧ (∀ q ∈ m.edges, q.1 < m.nextEdge)

theorem applyMOp_allocInv (m : MutableGraph N E) (op : MOp N E) (h : AllocInv m) :
    AllocInv (applyMOp m op) := by
  obtain ⟨hn, he⟩ := h
  cases op with
  | addNode p =>
      refine ⟨?_, he⟩
      intro q hq
      rcases List.mem_append.mp hq with hq | hq
      · exact Nat.lt_succ_of_lt (hn q hq)
      · rcases List.mem_singleton.mp hq with rfl
        exact Nat.lt_succ_self _
  | addEdge s t p =>
      simp only [applyMOp, addEdge]
      split
      · refine ⟨hn, ?_⟩
        intro q hq
        rcases List.mem_append.mp hq with hq | hq
        · exact Nat.lt_succ_of_lt (he q hq)
        · rcases List.mem_singleton.mp hq with rfl
          exact Nat.lt_succ_self _
      · exact ⟨hn, he⟩
  | removeNode i =>
      exact ⟨fun q hq => hn q (List.mem_of_mem_filter hq),
        fun q hq => he q (List.mem_of_mem_filter hq)⟩
  | removeEdge i =>
      exact ⟨hn, fun q hq => he q (List.mem_of_mem_filter hq)⟩

theorem foldl_applyMOp_allocInv (ops : List (MOp N E)) (m : MutableGraph N E)
    (h : AllocInv m) : AllocInv (ops.foldl applyMOp m) := by
  induction ops generalizing m with
  | nil => exact h
  | cons op ops ih => exact ih _ (applyMOp_allocInv m op h)

theorem runOps_allocInv (k : Kind) (ops : List (MOp N E)) : AllocInv (runOps k ops) :=
  foldl_applyMOp_allocInv ops _ ⟨fun _ hq => absurd hq (List.not_mem_nil _),
    fun _ hq => absurd hq (List.not_mem_nil _)⟩

theorem foldl_applyMOp_nextNode (ops : List (MOp N E)) (m : MutableGraph N E) :
    (ops.foldl applyMOp m).nextNode = m.nextNode + countAddNodes ops := by
  induction ops generalizing m with
  | nil => rfl
  | cons op ops ih =>
      rw [List.foldl_cons, ih]
      cases op with
      | addNode p => simp [countAddNodes, applyMOp, addNode, List.filter]; omega
      | addEdge s t p =>
          have : (applyMOp m (MOp.addEdge s t p)).nextNode = m.nextNode := by
            simp only [applyMOp, addEdge]
            split <;> rfl
          rw [this]
          simp [countAddNodes, List.filter]
      | removeNode i => simp [countAddNodes, applyMOp, removeNode, List.filter]
      | removeEdge i => simp [countAddNodes, applyMOp, removeEdge, List.filter]

/-- Stale node indices are never reassigned: if `i` is below the node
allocator counter and absent from the node store, it stays absent for the
rest of the lineage. -/
theorem foldl_applyMOp_node_stale (ops : List (MOp N E)) (m : MutableGraph N E) (i : Nat)
    (hlt : i < m.nextNode) (habs : ∀ q ∈ m.nodes, q.1 ≠ i) :
    ∀ q ∈ (ops.foldl applyMOp m).nodes, q.1 ≠ i := by
  induction ops generalizing m with
  | nil => exact habs
  | cons op ops ih =>
      refine ih (applyMOp m op) (Nat.lt_of_lt_of_le hlt (applyMOp_nextNode_le m op)) ?_
      cases op with
      | addNode p =>
          intro q hq
          rcases List.mem_append.mp hq with hq | hq
          · exact habs q hq
          · rcases List.mem_singleton.mp hq with rfl
            exact fun hcontra => absurd (hcontra ▸ hlt) (Nat.lt_irrefl _)
      | addEdge s t p =>
          intro q hq
          have : (applyMOp m (MOp.addEdge s t p)).nodes = m.nodes := by
            simp only [applyMOp, addEdge]
            split <;> rfl
          exact habs q (this ▸ hq)
      | removeNode j => exact fun q hq => habs q (List.mem_of_mem_filter hq)
      | removeEdge j => exact habs

theorem isEWalk_append {g : Graph N E} (es₁ : List (Nat × Nat × E)) :
    ∀ (es₂ : List (Nat × Nat × E)) (u w v : Nat),
      IsEWalk g u es₁ w → IsEWalk g w es₂ v → IsEWalk g u (es₁ ++ es₂) v := by
  induction es₁ with
  | nil =>
      intro es₂ u w v h1 h2
      have hu : u = w := h1
      rw [List.nil_append, hu]
      exact h2
  | cons e es ih =>
      intro es₂ u w v h1 h2
      obtain ⟨hmem, hsrc, hrest⟩ := h1
      exact ⟨hmem, hsrc, ih es₂ _ _ _ hrest h2⟩

theorem mem_dedges_of_mem_edges {g : Graph N E} {q : Nat × EdgeData E} (hq : q ∈ g.edges) :
    (q.2.source, q.2.target, q.2.payload) ∈ dedges g := by
  unfold dedges
  exact List.mem_flatMap.mpr ⟨q, hq, List.mem_cons_self _ _⟩

theorem dedges_mem_nodeIds {g : Graph N E} (hwf : WF g) {e : Nat × Nat × E}
    (he : e ∈ dedges g) : e.1 ∈ nodeIds g ∧ e.2.1 ∈ nodeIds g := by
  unfold dedges at he
  rw [List.mem_flatMap] at he
  obtain ⟨q, hq, hin⟩ := he
  have hq2 := hwf q hq
  rcases List.mem_cons.mp hin with rfl | hin
  · exact ⟨hq2.1, hq2.2⟩
  · split at hin
    · rcases List.mem_singleton.mp hin with rfl
      exact ⟨hq2.2, hq2.1⟩
    · exact absurd hin (List.not_mem_nil _)

theorem mem_succsIn {g : Graph N E} {R : Finset Nat} {v : Nat} :
    v ∈ succsIn g R ↔ v ∈ nodeIds g ∧ ∃ e ∈ dedges g, e.1 ∈ R ∧ e.2.1 = v := by
  unfold succsIn
  rw [Finset.mem_filter]
  constructor
  · rintro ⟨hv, hany⟩
    rw [List.any_eq_true] at hany
    obtain ⟨e, he, hb⟩ := hany
    rw [Bool.and_eq_true, decide_eq_true_iff, beq_iff_eq] at hb
    exact ⟨hv, e, he, hb.1, hb.2⟩
  · rintro ⟨hv, e, he, h1, h2⟩
    refine ⟨hv, List.any_eq_true.mpr ⟨e, he, ?_⟩⟩
    rw [Bool.and_eq_true, decide_eq_true_iff, beq_iff_eq]
    exact ⟨h1, h2⟩

theorem succsIn_subset_nodeIds (g : Graph N E) (R : Finset Nat) :
    succsIn g R ⊆ nodeIds g :=
  Finset.filter_subset _ _

theorem subset_stepR (g : Graph N E) (R : Finset Nat) : R ⊆ stepR g R :=
  Finset.subset_union_left

theorem stepR_subset_nodeIds {g : Graph N E} {R : Finset Nat} (h : R ⊆ nodeIds g) :
    stepR g R ⊆ nodeIds g :=
  Finset.union_subset h (succsIn_subset_nodeIds g R)

theorem iterate_stepR_subset_nodeIds {g : Graph N E} {R : Finset Nat} (h : R ⊆ nodeIds g) :
    ∀ i, (fun R => stepR g R)^[i] R ⊆ nodeIds g := by
  intro i
  induction i generalizing R with
  | zero => exact h
  | succ i ih =>
      rw [Function.iterate_succ_apply]
      exact ih (stepR_subset_nodeIds h)

theorem subset_iterate_stepR (g : Graph N E) (R : Finset Nat) :
    ∀ i, R ⊆ (fun R => stepR g R)^[i] R := by
  intro i
  induction i with
  | zero => exact Finset.Subset.refl R
  | succ i ih =>
      rw [Function.iterate_succ_apply']
      exact Finset.Subset.trans ih (subset_stepR g _)

theorem iterate_stepR_fixed_propagates (g : Graph N E) (R : Finset Nat) (i : Nat)
    (h : (fun R => stepR g R)^[i + 1] R = (fun R => stepR g R)^[i] R) :
    ∀ j, (fun R => stepR g R)^[i + j + 1] R = (fun R => stepR g R)^[i + j] R := by
  intro j
  induction j with
  | zero => exact h
  | succ j ih =>
      have e2 : i + (j + 1) = (i + j) + 1 := by omega
      calc (fun R => stepR g R)^[i + (j + 1) + 1] R
          = stepR g ((fun R => stepR g R)^[i + (j + 1)] R) :=
            Function.iterate_succ_apply' _ _ _
        _ = stepR g ((fun R => stepR g R)^[i + j + 1] R) := by rw [e2]
        _ = stepR g ((fun R => stepR g R)^[i + j] R) := by rw [ih]
        _ = (fun R => stepR g R)^[i + j + 1] R :=
            (Function.iterate_succ_apply' _ _ _).symm
        _ = (fun R => stepR g R)^[i + (j + 1)] R := by rw [e2]

theorem stepR_reachSet_fixed {g : Graph N E} {R : Finset Nat} (h : R ⊆ nodeIds g) :
    stepR g ((fun R => stepR g R)^[(nodeIds g).card] R) =
      (fun R => stepR g R)^[(nodeIds g).card] R := by
  set n := (nodeIds g).card with hn
  by_contra hne
  have hstrict : ∀ i, i ≤ n → (fun R => stepR g R)^[i + 1] R ≠ (fun R => stepR g R)^[i] R := by
    intro i hi heq
    obtain ⟨j, hj⟩ := Nat.exists_eq_add_of_le hi
    refine hne ?_
    rw [hj]
    exact ((Function.iterate_succ_apply' (fun R => stepR g R) (i + j) R).symm).trans
      (iterate_stepR_fixed_propagates g R i heq j)
  have hcards : ∀ i, i ≤ n + 1 → i ≤ ((fun R => stepR g R)^[i] R).card := by
    intro i
    induction i with
    | zero => exact fun _ => Nat.zero_le _
    | succ i ih =>
        intro hi
        have hii : i ≤ n := by omega
        have hsub : (fun R => stepR g R)^[i] R ⊆ (fun R => stepR g R)^[i + 1] R := by
          rw [Function.iterate_succ_apply']
          exact subset_stepR g _
        have hss : (fun R => stepR g R)^[i] R ⊂ (fun R => stepR g R)^[i + 1] R :=
          Finset.ssubset_iff_subset_ne.mpr ⟨hsub, fun heq => hstrict i hii heq.symm⟩
        have := Finset.card_lt_card hss
        have := ih (by omega)
        omega
  have h1 : n + 1 ≤ ((fun R => stepR g R)^[n + 1] R).card := hcards (n + 1) (Nat.le_refl _)
  have h2 : ((fun R => stepR g R)^[n + 1] R).card ≤ n := by
    rw [hn]
    exact Finset.card_le_card (iterate_stepR_subset_nodeIds h (n + 1))
  omega

theorem reachSet_sound {g : Graph N E} (u : Nat) :
    ∀ v ∈ reachSet g u, ∃ es, es ≠ [] ∧ IsEWalk g u es v := by
  unfold reachSet
  have main : ∀ i, ∀ v ∈ (fun R => stepR g R)^[i] (succsIn g {u}),
      ∃ es, es ≠ [] ∧ IsEWalk g u es v := by
    intro i
    induction i with
    | zero =>
        intro v hv
        rw [Function.iterate_zero_apply] at hv
        obtain ⟨_, e, he, h1, h2⟩ := mem_succsIn.mp hv
        rw [Finset.mem_singleton] at h1
        refine ⟨[e], by simp, ?_⟩
        exact ⟨he, h1, h2⟩
    | succ i ih =>
        intro v hv
        rw [Function.iterate_succ_apply'] at hv
        rcases Finset.mem_union.mp hv with hv | hv
        · exact ih v hv
        · obtain ⟨_, e, he, h1, h2⟩ := mem_succsIn.mp hv
          obtain ⟨es, hne, hw⟩ := ih e.1 h1
          refine ⟨es ++ [e], by simp, ?_⟩
          exact isEWalk_append es [e] u e.1 v hw ⟨he, rfl, h2⟩
  exact main _

theorem succsIn_singleton_subset_reachSet (g : Graph N E) (u : Nat) :
    succsIn g {u} ⊆ reachSet g u := by
  unfold reachSet
  exact subset_iterate_stepR g _ _

theorem reachSet_closed {g : Graph N E} (hwf : WF g) (u : Nat) :
    ∀ v ∈ reachSet g u, ∀ e ∈ dedges g, e.1 = v → e.2.1 ∈ reachSet g u := by
  intro v hv e he hev
  have hmem : e.2.1 ∈ succsIn g (reachSet g u) :=
    mem_succsIn.mpr ⟨(dedges_mem_nodeIds hwf he).2, e, he, hev ▸ hv, rfl⟩
  have hstep : e.2.1 ∈ stepR g (reachSet g u) := Finset.mem_union_right _ hmem
  have hfix : stepR g (reachSet g u) = reachSet g u := by
    unfold reachSet
    exact stepR_reachSet_fixed (succsIn_subset_nodeIds g _)
  rwa [hfix] at hstep

theorem reachSet_extend {g : Graph N E} (hwf : WF g) (u : Nat) :
    ∀ (es : List (Nat × Nat × E)) (w v : Nat),
      w ∈ reachSet g u → IsEWalk g w es v → v ∈ reachSet g u := by
  intro es
  induction es with
  | nil =>
      intro w v hw hwalk
      have hwv : w = v := hwalk
      exact hwv ▸ hw
  | cons e es ih =>
      intro w v hw hwalk
      obtain ⟨he, hsrc, hrest⟩ := hwalk
      exact ih e.2.1 v (reachSet_closed hwf u w hw e he hsrc) hrest

theorem reachSet_complete {g : Graph N E} (hwf : WF g) {u v : Nat}
    {es : List (Nat × Nat × E)} (hne : es ≠ []) (hw : IsEWalk g u es v) :
    v ∈ reachSet g u := by
  cases es with
  | nil => exact absurd rfl hne
  | cons e es' =>
      obtain ⟨he, hsrc, hrest⟩ := hw
      have hbase : e.2.1 ∈ reachSet g u := by
        refine succsIn_singleton_subset_reachSet g u ?_
        refine mem_succsIn.mpr ⟨(dedges_mem_nodeIds hwf he).2, e, he, ?_, rfl⟩
        rw [Finset.mem_singleton]
        exact hsrc
      exact reachSet_extend hwf u es' e.2.1 v hbase hrest

theorem before_trans {l : List Nat} {u v w : Nat} (h1 : Before l u v) (h2 : Before l v w) :
    Before l u w :=
  ⟨h1.1, h2.2.1, Nat.lt_trans h1.2.2 h2.2.2⟩

theorem before_irrefl {l : List Nat} {u : Nat} (h : Before l u u) : False :=
  Nat.lt_irrefl _ h.2.2

theorem topoAux_empty (g : Graph N E) : topoAux g ∅ = some [] := by
  unfold topoAux
  simp

theorem kahnPick_mem {g : Graph N E} {S : Finset Nat} {n : Nat}
    (h : kahnPick g S = some n) : n ∈ S ∧ noIncoming g S n = true := by
  unfold kahnPick at h
  split at h
  · rename_i hne
    injection h with h
    subst h
    have hmem := Finset.min'_mem _ hne
    unfold kahnCandidates at hmem
    rw [Finset.mem_filter] at hmem
    exact hmem
  · exact absurd h (by simp)

theorem noIncoming_spec {g : Graph N E} {S : Finset Nat} {n : Nat}
    (h : noIncoming g S n = true) :
    ∀ e ∈ dedges g, e.1 ∈ S → e.2.1 ≠ n := by
  unfold noIncoming at h
  rw [List.all_eq_true] at h
  intro e he h1 h2
  have hb := h e he
  simp only [Bool.not_eq_true', Bool.and_eq_false_iff, decide_eq_false_iff_not,
    beq_eq_false_iff_ne] at hb
  rcases hb with hb | hb
  · exact hb h1
  · exact hb h2

theorem kahnPick_none_stall {g : Graph N E} {S : Finset Nat} (h : kahnPick g S = none) :
    ∀ n ∈ S, ∃ e ∈ dedges g, e.1 ∈ S ∧ e.2.1 = n := by
  unfold kahnPick at h
  split at h
  · exact absurd h (by simp)
  · rename_i hne
    intro n hn
    by_contra hcon
    push_neg at hcon
    apply hne
    refine ⟨n, ?_⟩
    unfold kahnCandidates
    rw [Finset.mem_filter]
    refine ⟨hn, ?_⟩
    unfold noIncoming
    rw [List.all_eq_true]
    intro e he
    simp only [Bool.not_eq_true', Bool.and_eq_false_iff, decide_eq_false_iff_not,
      beq_eq_false_iff_ne]
    by_cases h1 : e.1 ∈ S
    · exact Or.inr (hcon e he h1)
    · exact Or.inl h1

theorem stall_cycle {g : Graph N E} {S : Finset Nat} (hne : S.Nonempty)
    (hstall : ∀ n ∈ S, ∃ e ∈ dedges g, e.1 ∈ S ∧ e.2.1 = n) : HasCycle g := by
  classical
  have hstall' : ∀ n : Nat, ∃ m : Nat,
      n ∈ S → m ∈ S ∧ ∃ e ∈ dedges g, e.1 = m ∧ e.2.1 = n := by
    intro n
    by_cases hn : n ∈ S
    · obtain ⟨e, he, h1, h2⟩ := hstall n hn
      exact ⟨e.1, fun _ => ⟨h1, e, he, rfl, h2⟩⟩
    · exact ⟨0, fun h => absurd h hn⟩
  choose F hF using hstall'
  obtain ⟨s₀, hs₀⟩ := hne
  have hmem : ∀ k, F^[k] s₀ ∈ S := by
    intro k
    induction k with
    | zero => exact hs₀
    | succ k ihk =>
        rw [Function.iterate_succ_apply']
        exact (hF (F^[k] s₀) ihk).1
  have hedge : ∀ k, ∃ e ∈ dedges g, e.1 = F^[k + 1] s₀ ∧ e.2.1 = F^[k] s₀ := by
    intro k
    obtain ⟨e, he, h1, h2⟩ := (hF (F^[k] s₀) (hmem k)).2
    rw [Function.iterate_succ_apply']
    exact ⟨e, he, h1, h2⟩
  have hwalk : ∀ d k, ∃ es, es ≠ [] ∧ IsEWalk g (F^[k + d + 1] s₀) es (F^[k] s₀) := by
    intro d
    induction d with
    | zero =>
        intro k
        obtain ⟨e, he, h1, h2⟩ := hedge k
        exact ⟨[e], by simp, he, h1, h2⟩
    | succ d ihd =>
        intro k
        obtain ⟨es, hesne, hw⟩ := ihd (k + 1)
        obtain ⟨e, he, h1, h2⟩ := hedge k
        refine ⟨es ++ [e], by simp, ?_⟩
        have heq : k + 1 + d + 1 = k + (d + 1) + 1 := by omega
        rw [heq] at hw
        exact isEWalk_append es [e] _ _ _ hw ⟨he, h1, h2⟩
  have hpigeon : ∃ i ∈ Finset.range (S.card + 1), ∃ j ∈ Finset.range (S.card + 1),
      i ≠ j ∧ F^[i] s₀ = F^[j] s₀ := by
    have hmaps : ∀ i ∈ Finset.range (S.card + 1), F^[i] s₀ ∈ S := fun i _ => hmem i
    have hcard : S.card < (Finset.range (S.card + 1)).card := by
      rw [Finset.card_range]
      exact Nat.lt_succ_self _
    exact Finset.exists_ne_map_eq_of_card_lt_of_maps_to hcard hmaps
  obtain ⟨i, _, j, _, hij, heq⟩ := hpigeon
  rcases Nat.lt_or_ge i j with hlt | hge
  · obtain ⟨d, hd⟩ := Nat.exists_eq_add_of_lt hlt
    obtain ⟨es, hesne, hw⟩ := hwalk d i
    rw [← hd, ← heq] at hw
    exact ⟨F^[i] s₀, es, hesne, hw⟩
  · have hlt : j < i := Nat.lt_of_le_of_ne hge (fun h => hij h.symm)
    obtain ⟨d, hd⟩ := Nat.exists_eq_add_of_lt hlt
    obtain ⟨es, hesne, hw⟩ := hwalk d j
    rw [← hd, heq] at hw
    exact ⟨F^[j] s₀, es, hesne, hw⟩

theorem topoAux_some_spec {g : Graph N E} :
    ∀ (n : ℕ) (S : Finset Nat), S.card ≤ n → ∀ l, topoAux g S = some l →
      l.Nodup ∧ l.toFinset = S ∧
      (∀ e ∈ dedges g, e.1 ∈ S → e.2.1 ∈ S → Before l e.1 e.2.1) := by
  intro n
  induction n with
  | zero =>
      intro S hcard l htopo
      have hS : S = ∅ := Finset.card_eq_zero.mp (Nat.le_zero.mp hcard)
      subst hS
      rw [topoAux_empty] at htopo
      injection htopo with htopo
      subst htopo
      exact ⟨List.nodup_nil, by simp, fun e _ h1 _ => absurd h1 (Finset.not_mem_empty _)⟩
  | succ n ih =>
      intro S hcard l htopo
      by_cases hS : S = ∅
      · subst hS
        rw [topoAux_empty] at htopo
        injection htopo with htopo
        subst htopo
        exact ⟨List.nodup_nil, by simp, fun e _ h1 _ => absurd h1 (Finset.not_mem_empty _)⟩
      · unfold topoAux at htopo
        rw [if_neg hS] at htopo
        split at htopo
        · exact absurd htopo (by simp)
        · rename_i m hpick
          split at htopo
          · exact absurd htopo (by simp)
          · rename_i l' hrec
            injection htopo with htopo
            subst htopo
            obtain ⟨hmS, hnoinc⟩ := kahnPick_mem hpick
            have hcard' : (S.erase m).card ≤ n := by
              have := Finset.card_erase_lt_of_mem hmS
              omega
            obtain ⟨hnodup, hcover, horder⟩ := ih (S.erase m) hcard' l' hrec
            have hmnotin : m ∉ l' := by
              intro hin
              have : m ∈ S.erase m := hcover ▸ List.mem_toFinset.mpr hin
              exact absurd this (Finset.not_mem_erase m S)
            refine ⟨List.nodup_cons.mpr ⟨hmnotin, hnodup⟩, ?_, ?_⟩
            · rw [List.toFinset_cons, hcover, Finset.insert_erase hmS]
            · intro e he h1 h2
              by_cases hv : e.2.1 = m
              · exact absurd hv (noIncoming_spec hnoinc e he h1)
              · have h2' : e.2.1 ∈ S.erase m := Finset.mem_erase.mpr ⟨hv, h2⟩
                by_cases hu : e.1 = m
                · have hvl : e.2.1 ∈ l' := by
                    rw [← List.mem_toFinset, hcover]
                    exact h2'
                  refine ⟨?_, List.mem_cons_of_mem _ hvl, ?_⟩
                  · rw [hu]
                    exact List.mem_cons_self _ _
                  · rw [hu, List.indexOf_cons_self,
                      List.indexOf_cons_ne _ (by exact fun hc => hv hc.symm)]
                    exact Nat.succ_pos _
                · have h1' : e.1 ∈ S.erase m := Finset.mem_erase.mpr ⟨hu, h1⟩
                  obtain ⟨hul, hvl, hlt⟩ := horder e he h1' h2'
                  refine ⟨List.mem_cons_of_mem _ hul, List.mem_cons_of_mem _ hvl, ?_⟩
                  rw [List.indexOf_cons_ne _ (by exact fun hc => hu hc.symm),
                    List.indexOf_cons_ne _ (by exact fun hc => hv hc.symm)]
                  exact Nat.succ_lt_succ hlt

theorem topoAux_none_spec {g : Graph N E} :
    ∀ (n : ℕ) (S : Finset Nat), S.card ≤ n → topoAux g S = none → HasCycle g := by
  intro n
  induction n with
  | zero =>
      intro S hcard htopo
      have hS : S = ∅ := Finset.card_eq_zero.mp (Nat.le_zero.mp hcard)
      subst hS
      rw [topoAux_empty] at htopo
      exact absurd htopo (by simp)
  | succ n ih =>
      intro S hcard htopo
      by_cases hS : S = ∅
      · subst hS
        rw [topoAux_empty] at htopo
        exact absurd htopo (by simp)
      · unfold topoAux at htopo
        rw [if_neg hS] at htopo
        split at htopo
        · rename_i hpick
          exact stall_cycle (Finset.nonempty_iff_ne_empty.mpr hS) (kahnPick_none_stall hpick)
        · rename_i m hpick
          split at htopo
          · rename_i hrec
            have hmS := (kahnPick_mem hpick).1
            have hcard' : (S.erase m).card ≤ n := by
              have := Finset.card_erase_lt_of_mem hmS
              omega
            exact ih (S.erase m) hcard' hrec
          · exact absurd htopo (by simp)

theorem walk_before {g : Graph N E} (hwf : WF g) {l : List Nat}
    (horder : ∀ e ∈ dedges g, e.1 ∈ nodeIds g → e.2.1 ∈ nodeIds g → Before l e.1 e.2.1) :
    ∀ (es : List (Nat × Nat × E)) (u v : Nat), es ≠ [] → IsEWalk g u es v →
      Before l u v := by
  intro es
  induction es with
  | nil => exact fun u v hne _ => absurd rfl hne
  | cons e es ih =>
      intro u v _ hw
      obtain ⟨he, hsrc, hrest⟩ := hw
      have hstep : Before l e.1 e.2.1 :=
        horder e he (dedges_mem_nodeIds hwf he).1 (dedges_mem_nodeIds hwf he).2
      cases es with
      | nil =>
          have hv : e.2.1 = v := hrest
          rw [← hsrc, ← hv]
          exact hstep
      | cons e' es' =>
          have htail := ih e.2.1 v (by simp) hrest
          rw [← hsrc]
          exact before_trans hstep htail

theorem topo_isSome_iff {g : Graph N E} (hwf : WF g) :
    (topo g).isSome = true ↔ ¬ HasCycle g := by
  constructor
  · intro hsome hcyc
    obtain ⟨l, hl⟩ := Option.isSome_iff_exists.mp hsome
    obtain ⟨u, es, hne, hw⟩ := hcyc
    have hl' : topoAux g (nodeIds g) = some l := hl
    have hspec := topoAux_some_spec (nodeIds g).card (nodeIds g)
      (Nat.le_refl _) l hl'
    have horder : ∀ e ∈ dedges g, e.1 ∈ nodeIds g → e.2.1 ∈ nodeIds g →
        Before l e.1 e.2.1 := by
      intro e he h1 h2
      exact hspec.2.2 e he h1 h2
    exact before_irrefl (walk_before hwf horder es u u hne hw)
  · intro hnc
    rw [Option.isSome_iff_exists]
    cases htopo : topo g with
    | none => exact absurd (topoAux_none_spec (nodeIds g).card (nodeIds g)
        (Nat.le_refl _) htopo) hnc
    | some l => exact ⟨l, rfl⟩

theorem isAcyclic_iff {g : Graph N E} (hwf : WF g) :
    isAcyclic g = true ↔ ¬ HasCycle g := by
  unfold isAcyclic
  rw [decide_eq_true_iff]
  constructor
  · intro h hcyc
    obtain ⟨u, es, hne, hw⟩ := hcyc
    have hu : u ∈ nodeIds g := by
      cases es with
      | nil => exact absurd rfl hne
      | cons e es' =>
          obtain ⟨he, hsrc, _⟩ := hw
          exact hsrc ▸ (dedges_mem_nodeIds hwf he).1
    exact h u hu (reachSet_complete hwf hne hw)
  · intro hnc u hu hmem
    obtain ⟨es, hne, hw⟩ := reachSet_sound u u hmem
    exact hnc ⟨u, es, hne, hw⟩

/-- Stale edge indices are never reassigned. -/
theorem foldl_applyMOp_edge_stale (ops : List (MOp N E)) (m : MutableGraph N E) (j : Nat)
    (hlt : j < m.nextEdge) (habs : ∀ q ∈ m.edges, q.1 ≠ j) :
    ∀ q ∈ (ops.foldl applyMOp m).edges, q.1 ≠ j := by
  induction ops generalizing m with
  | nil => exact habs
  | cons op ops ih =>
      refine ih (applyMOp m op) (Nat.lt_of_lt_of_le hlt (applyMOp_nextEdge_le m op)) ?_
      cases op with
      | addNode p => exact habs
      | addEdge s t p =>
          intro q hq
          simp only [applyMOp, addEdge] at hq
          split at hq
          · rcases List.mem_append.mp hq with hq | hq
            · exact habs q hq
            · rcases List.mem_singleton.mp hq with rfl
              exact fun hcontra => absurd (hcontra ▸ hlt) (Nat.lt_irrefl _)
          · exact habs q hq
      | removeNode i => exact fun q hq => habs q (List.mem_of_mem_filter hq)
      | removeEdge i => exact fun q hq => habs q (List.mem_of_mem_filter hq)

end EG

namespace EG

variable {N E W : Type} [LinearOrderedAddCommMonoid W]

theorem mem_frontier {g : Graph N E} {st : SPState W} {v : Nat} :
    v ∈ frontier g st ↔ v ∈ nodeIds g ∧ v ∉ st.settled ∧ (st.dist v).isSome = true := by
  unfold frontier
  rw [Finset.mem_filter]

theorem mem_frontierList {g : Graph N E} {st : SPState W} {v : Nat} :
    v ∈ frontierList g st ↔ v ∈ frontier g st := by
  unfold frontierList
  rw [List.mem_filter, mem_frontier]
  unfold nodeIds
  rw [List.mem_toFinset]
  simp only [Bool.and_eq_true, decide_eq_true_iff]

theorem pickStep_cases (st : SPState W) (hfun : Nat → W) (acc : Option Nat) (v : Nat) :
    pickStep st hfun acc v = some v ∨ pickStep st hfun acc v = acc := by
  cases acc with
  | none => exact Or.inl rfl
  | some b =>
      by_cases hc : priorityOf st hfun v < priorityOf st hfun b ∨
          (priorityOf st hfun v = priorityOf st hfun b ∧ v < b)
      · left
        show (if priorityOf st hfun v < priorityOf st hfun b ∨
            (priorityOf st hfun v = priorityOf st hfun b ∧ v < b) then some v
          else some b) = some v
        rw [if_pos hc]
      · right
        show (if priorityOf st hfun v < priorityOf st hfun b ∨
            (priorityOf st hfun v = priorityOf st hfun b ∧ v < b) then some v
          else some b) = some b
        rw [if_neg hc]

theorem pickMin_aux_ne_none {st : SPState W} {hfun : Nat → W} :
    ∀ (l : List Nat) (b : Nat),
      l.foldl (pickStep st hfun) (some b) ≠ none := by
  intro l
  induction l with
  | nil => intro b h; exact Option.noConfusion h
  | cons v l ih =>
      intro b
      rw [List.foldl_cons]
      rcases pickStep_cases st hfun (some b) v with h | h
      · rw [h]; exact ih v
      · rw [h]; exact ih b

theorem pickMin_none_iff {g : Graph N E} {st : SPState W} {hfun : Nat → W} :
    pickMin g st hfun = none ↔ frontier g st = ∅ := by
  constructor
  · intro h
    rw [Finset.eq_empty_iff_forall_not_mem]
    intro v hv
    have hvl : v ∈ frontierList g st := mem_frontierList.mpr hv
    unfold pickMin at h
    obtain ⟨l1, l2, hsplit⟩ := List.append_of_mem hvl
    rw [hsplit, List.foldl_append, List.foldl_cons] at h
    revert h
    rcases pickStep_cases st hfun (l1.foldl (pickStep st hfun) none) v with hc | hc
    · rw [hc]
      exact pickMin_aux_ne_none l2 v
    · rw [hc]
      cases hacc : l1.foldl (pickStep st hfun) none with
      | none =>
          rw [hacc] at hc
          exact fun _ => Option.noConfusion hc
      | some b => exact pickMin_aux_ne_none l2 b
  · intro h
    unfold pickMin
    have : frontierList g st = [] := by
      rw [List.eq_nil_iff_forall_not_mem]
      intro v hv
      have := mem_frontierList.mp hv
      rw [h] at this
      exact Finset.not_mem_empty v this
    rw [this]
    rfl

theorem pickMin_aux_mem {st : SPState W} {hfun : Nat → W} :
    ∀ (l : List Nat) (acc : Option Nat) (u : Nat),
      l.foldl (pickStep st hfun) acc = some u → acc = some u ∨ u ∈ l := by
  intro l
  induction l with
  | nil => exact fun acc u h => Or.inl h
  | cons v l ih =>
      intro acc u h
      rw [List.foldl_cons] at h
      rcases ih _ u h with hacc | hl
      · rcases pickStep_cases st hfun acc v with hc | hc
        · rw [hc] at hacc
          injection hacc with hacc
          exact Or.inr (hacc ▸ List.mem_cons_self _ _)
        · rw [hc] at hacc
          exact Or.inl hacc
      · exact Or.inr (List.mem_cons_of_mem _ hl)

theorem pickMin_mem {g : Graph N E} {st : SPState W} {hfun : Nat → W} {u : Nat}
    (h : pickMin g st hfun = some u) : u ∈ frontier g st := by
  unfold pickMin at h
  rcases pickMin_aux_mem _ none u h with hacc | hl
  · exact Option.noConfusion hacc
  · exact mem_frontierList.mp hl

theorem outEdges_spec {g : Graph N E} {u : Nat} {e : Nat × Nat × E} :
    e ∈ outEdges g u ↔ e ∈ dedges g ∧ e.1 = u := by
  unfold outEdges
  rw [List.mem_filter, beq_iff_eq]

theorem relaxEdge_settled (cost : E → W) (u : Nat) (du : W) (st : SPState W)
    (e : Nat × Nat × E) : (relaxEdge cost u du st e).settled = st.settled := by
  unfold relaxEdge
  split
  · rfl
  · split <;> rfl

theorem relaxEdge_mono (cost : E → W) (u : Nat) (du : W) (st : SPState W)
    (e : Nat × Nat × E) (v : Nat) (h : (st.dist v).isSome = true) :
    ((relaxEdge cost u du st e).dist v).isSome = true := by
  unfold relaxEdge
  split
  · dsimp only
    split
    · rfl
    · exact h
  · split
    · dsimp only
      split
      · rfl
      · exact h
    · exact h

theorem relaxEdge_target (cost : E → W) (u : Nat) (du : W) (st : SPState W)
    (e : Nat × Nat × E) : ((relaxEdge cost u du st e).dist e.2.1).isSome = true := by
  unfold relaxEdge
  split
  · dsimp only
    rw [if_pos rfl]
    rfl
  · rename_i dv hdv
    split
    · dsimp only
      rw [if_pos rfl]
      rfl
    · rw [hdv]
      rfl

theorem relaxEdge_new (cost : E → W) (u : Nat) (du : W) (st : SPState W)
    (e : Nat × Nat × E) (v : Nat) (h : ((relaxEdge cost u du st e).dist v).isSome = true) :
    (st.dist v).isSome = true ∨ v = e.2.1 := by
  by_cases hv : v = e.2.1
  · exact Or.inr hv
  · left
    revert h
    unfold relaxEdge
    split
    · dsimp only
      rw [if_neg hv]
      exact id
    · split
      · dsimp only
        rw [if_neg hv]
        exact id
      · exact id

theorem relaxFold_settled (cost : E → W) (u : Nat) (du : W) :
    ∀ (l : List (Nat × Nat × E)) (st : SPState W),
      (l.foldl (relaxEdge cost u du) st).settled = st.settled := by
  intro l
  induction l with
  | nil => exact fun st => rfl
  | cons e l ih =>
      intro st
      rw [List.foldl_cons, ih, relaxEdge_settled]

theorem relaxFold_mono (cost : E → W) (u : Nat) (du : W) :
    ∀ (l : List (Nat × Nat × E)) (st : SPState W) (v : Nat),
      (st.dist v).isSome = true →
      ((l.foldl (relaxEdge cost u du) st).dist v).isSome = true := by
  intro l
  induction l with
  | nil => exact fun st v h => h
  | cons e l ih =>
      intro st v h
      rw [List.foldl_cons]
      exact ih _ v (relaxEdge_mono cost u du st e v h)

theorem relaxFold_new (cost : E → W) (u : Nat) (du : W) :
    ∀ (l : List (Nat × Nat × E)) (st : SPState W) (v : Nat),
      ((l.foldl (relaxEdge cost u du) st).dist v).isSome = true →
      (st.dist v).isSome = true ∨ ∃ e ∈ l, v = e.2.1 := by
  intro l
  induction l with
  | nil => exact fun st v h => Or.inl h
  | cons e l ih =>
      intro st v h
      rw [List.foldl_cons] at h
      rcases ih _ v h with hsome | ⟨e', he', hv⟩
      · rcases relaxEdge_new cost u du st e v hsome with hsome | hv
        · exact Or.inl hsome
        · exact Or.inr ⟨e, List.mem_cons_self _ _, hv⟩
      · exact Or.inr ⟨e', List.mem_cons_of_mem _ he', hv⟩

theorem relaxFold_targets (cost : E → W) (u : Nat) (du : W) :
    ∀ (l : List (Nat × Nat × E)) (st : SPState W) (e : Nat × Nat × E), e ∈ l →
      ((l.foldl (relaxEdge cost u du) st).dist e.2.1).isSome = true := by
  intro l
  induction l with
  | nil => exact fun st e h => absurd h (List.not_mem_nil _)
  | cons e' l ih =>
      intro st e he
      rw [List.foldl_cons]
      rcases List.mem_cons.mp he with rfl | he
      · exact relaxFold_mono cost u du l _ _ (relaxEdge_target cost u du st e)
      · exact ih _ e he

theorem relaxFrom_settled (g : Graph N E) (cost : E → W) (u : Nat) (du : W)
    (st : SPState W) : (relaxFrom g cost u du st).settled = st.settled :=
  relaxFold_settled cost u du (outEdges g u) st

theorem spStep_inv {g : Graph N E} {source target : Nat} (hwf : WF g)
    (cost : E → W) {st : SPState W} (hinv : SPInv g source target st)
    {u : Nat} {du : W} (hu : u ∈ frontier g st) (hdu : st.dist u = some du)
    (hut : u ≠ target) :
    SPInv g source target
      (relaxFrom g cost u du { st with settled := insert u st.settled }) := by
  have hreachu : Reaches g source u := hinv.reach u (by rw [hdu]; rfl)
  constructor
  · intro v hv
    rcases relaxFold_new cost u du _ _ v hv with hsome | ⟨e, he, hv'⟩
    · exact hinv.reach v hsome
    · obtain ⟨hde, hsrc⟩ := outEdges_spec.mp he
      obtain ⟨es, hes⟩ := hreachu
      exact ⟨es ++ [e], hv' ▸ isEWalk_append es [e] source u e.2.1 hes ⟨hde, hsrc, rfl⟩⟩
  · intro w hw e he hsrc
    rw [relaxFrom_settled] at hw
    have hw' : w ∈ insert u st.settled := hw
    rcases Finset.mem_insert.mp hw' with rfl | hw''
    · exact relaxFold_targets cost w du _ _ e (outEdges_spec.mpr ⟨he, hsrc⟩)
    · exact relaxFold_mono cost u du _ _ _ (hinv.closed w hw'' e he hsrc)
  · intro v hv
    rcases relaxFold_new cost u du _ _ v hv with hsome | ⟨e, he, hv'⟩
    · exact hinv.dom v hsome
    · exact hv' ▸ (dedges_mem_nodeIds hwf (outEdges_spec.mp he).1).2
  · exact relaxFold_mono cost u du _ _ _ hinv.src
  · rw [relaxFrom_settled]
    intro hmem
    rcases Finset.mem_insert.mp hmem with heq | hmem
    · exact hut heq.symm
    · exact hinv.tns hmem

theorem spInit_inv {g : Graph N E} {source target : Nat}
    (hs : source ∈ nodeIds g) : SPInv g source target (spInit source : SPState W) := by
  constructor
  · intro v hv
    unfold spInit at hv
    dsimp only at hv
    split at hv
    · rename_i hvs
      exact ⟨[], hvs.symm⟩
    · exact absurd hv (by simp)
  · exact fun w hw => absurd hw (Finset.not_mem_empty w)
  · intro v hv
    unfold spInit at hv
    dsimp only at hv
    split at hv
    · rename_i hvs
      exact hvs ▸ hs
    · exact absurd hv (by simp)
  · unfold spInit
    dsimp only
    rw [if_pos rfl]
    rfl
  · exact Finset.not_mem_empty target

theorem spLoop_some_reaches {g : Graph N E} {source target : Nat} (hwf : WF g)
    (cost : E → W) (hfun : Nat → W) :
    ∀ (fuel : Nat) (st : SPState W), SPInv g source target st →
      (spLoop g cost hfun source target fuel st).isSome = true →
      Reaches g source target := by
  intro fuel
  induction fuel with
  | zero => exact fun st _ h => absurd h (by simp [spLoop])
  | succ fuel ih =>
      intro st hinv h
      rw [spLoop] at h
      revert h
      split
      · intro h
        exact absurd h (by simp)
      · rename_i u hpick
        split
        · intro h
          exact absurd h (by simp)
        · rename_i du hdu
          split
          · rename_i hut
            intro _
            exact hinv.reach target (by rw [← hut, hdu]; rfl)
          · rename_i hut
            exact ih _ (spStep_inv hwf cost hinv (pickMin_mem hpick) hdu hut)

theorem spLoop_none_unreachable {g : Graph N E} {source target : Nat} (hwf : WF g)
    (cost : E → W) (hfun : Nat → W) :
    ∀ (fuel : Nat) (st : SPState W), SPInv g source target st →
      ((nodeIds g) \ st.settled).card < fuel →
      spLoop g cost hfun source target fuel st = none →
      ¬ Reaches g source target := by
  intro fuel
  induction fuel with
  | zero => exact fun st _ hcard _ => absurd hcard (Nat.not_lt_zero _)
  | succ fuel ih =>
      intro st hinv hcard h
      rw [spLoop] at h
      revert h
      split
      · rename_i hpick
        intro _
        have hempty : frontier g st = ∅ := pickMin_none_iff.mp hpick
        have hsettled : ∀ v, (st.dist v).isSome = true → v ∈ st.settled := by
          intro v hv
          by_contra hns
          have : v ∈ frontier g st := mem_frontier.mpr ⟨hinv.dom v hv, hns, hv⟩
          rw [hempty] at this
          exact Finset.not_mem_empty v this
        have hclosed : ∀ (es : List (Nat × Nat × E)) (w v : Nat), w ∈ st.settled →
            IsEWalk g w es v → v ∈ st.settled := by
          intro es
          induction es with
          | nil =>
              intro w v hw hwalk
              have hwv : w = v := hwalk
              exact hwv ▸ hw
          | cons e es ihe =>
              intro w v hw hwalk
              obtain ⟨he, hsrc, hrest⟩ := hwalk
              exact ihe e.2.1 v (hsettled _ (hinv.closed w hw e he hsrc)) hrest
        intro ⟨es, hes⟩
        exact hinv.tns (hclosed es source target (hsettled source hinv.src) hes)
      · rename_i u hpick
        have hufr := pickMin_mem hpick
        split
        · rename_i hdu
          have := (mem_frontier.mp hufr).2.2
          rw [hdu] at this
          exact absurd this (by simp)
        · rename_i du hdu
          split
          · intro h
            exact absurd h (by simp)
          · rename_i hut
            intro h
            obtain ⟨hun, hus, _⟩ := mem_frontier.mp hufr
            refine ih _ (spStep_inv hwf cost hinv hufr hdu hut) ?_ h
            rw [relaxFrom_settled]
            have hmem : u ∈ (nodeIds g) \ st.settled := Finset.mem_sdiff.mpr ⟨hun, hus⟩
            have hdiff : (nodeIds g) \ insert u st.settled =
                ((nodeIds g) \ st.settled).erase u := by
              ext x
              rw [Finset.mem_erase, Finset.mem_sdiff, Finset.mem_sdiff,
                Finset.mem_insert]
              tauto
            rw [hdiff]
            have := Finset.card_erase_lt_of_mem hmem
            omega

theorem spLoop_none_iff {g : Graph N E} {source target : Nat} (hwf : WF g)
    (cost : E → W) (hfun : Nat → W) (hs : source ∈ nodeIds g) :
    spLoop g cost hfun source target ((nodeIds g).card + 1) (spInit source) = none ↔
      ¬ Reaches g source target := by
  constructor
  · refine spLoop_none_unreachable hwf cost hfun _ _ (spInit_inv hs) ?_
    have h0 : (spInit source : EG.SPState W).settled = ∅ := rfl
    rw [h0, Finset.sdiff_empty]
    exact Nat.lt_succ_self _
  · intro hnr
    cases h : spLoop g cost hfun source target ((nodeIds g).card + 1) (spInit source) with
    | none => rfl
    | some r =>
        exact absurd (spLoop_some_reaches hwf cost hfun _ _ (spInit_inv hs)
          (by rw [h]; rfl)) hnr

theorem bfRelaxEdge_mono (cost : E → W) (st : BFState W) (e : Nat × Nat × E)
    (v : Nat) (h : (st.dist v).isSome = true) :
    ((bfRelaxEdge cost st e).dist v).isSome = true := by
  unfold bfRelaxEdge
  split
  · exact h
  · split
    · dsimp only
      split
      · rfl
      · exact h
    · split
      · dsimp only
        split
        · rfl
        · exact h
      · exact h

theorem bfRelaxEdge_new (cost : E → W) (st : BFState W) (e : Nat × Nat × E)
    (v : Nat) (h : ((bfRelaxEdge cost st e).dist v).isSome = true) :
    (st.dist v).isSome = true ∨ (v = e.2.1 ∧ (st.dist e.1).isSome = true) := by
  revert h
  unfold bfRelaxEdge
  split
  · exact fun h => Or.inl h
  · rename_i ds hds
    have hsome : (st.dist e.1).isSome = true := by rw [hds]; rfl
    split
    · dsimp only
      by_cases hv : v = e.2.1
      · exact fun _ => Or.inr ⟨hv, hsome⟩
      · rw [if_neg hv]
        exact fun h => Or.inl h
    · split
      · dsimp only
        by_cases hv : v = e.2.1
        · exact fun _ => Or.inr ⟨hv, hsome⟩
        · rw [if_neg hv]
          exact fun h => Or.inl h
      · exact fun h => Or.inl h

theorem bfFold_reach {g : Graph N E} (source : Nat) (cost : E → W) :
    ∀ (l : List (Nat × Nat × E)), (∀ e ∈ l, e ∈ dedges g) →
      ∀ (st : BFState W), (∀ v, (st.dist v).isSome = true → Reaches g source v) →
      ∀ v, ((l.foldl (bfRelaxEdge cost) st).dist v).isSome = true → Reaches g source v := by
  intro l
  induction l with
  | nil => exact fun _ st hst => hst
  | cons e l ih =>
      intro hsub st hst v hv
      rw [List.foldl_cons] at hv
      refine ih (fun e' he' => hsub e' (List.mem_cons_of_mem _ he')) _ ?_ v hv
      intro w hw
      rcases bfRelaxEdge_new cost st e w hw with hw' | ⟨rfl, hsrc⟩
      · exact hst w hw'
      · obtain ⟨es, hes⟩ := hst e.1 hsrc
        exact ⟨es ++ [e], isEWalk_append es [e] source e.1 e.2.1 hes
          ⟨hsub e (List.mem_cons_self _ _), rfl, rfl⟩⟩

theorem bfFinal_reach (g : Graph N E) (source : Nat) (cost : E → W) :
    ∀ v, ((bfFinal g source cost).dist v).isSome = true → Reaches g source v := by
  unfold bfFinal
  have main : ∀ (k : Nat) (st : BFState W),
      (∀ v, (st.dist v).isSome = true → Reaches g source v) →
      ∀ v, (((fun st => bfPass g cost st)^[k] st).dist v).isSome = true →
        Reaches g source v := by
    intro k
    induction k with
    | zero => exact fun st hst => hst
    | succ k ihk =>
        intro st hst
        rw [Function.iterate_succ_apply]
        exact ihk _ (bfFold_reach source cost (dedges g) (fun _ he => he) st hst)
  refine main _ _ ?_
  intro v hv
  dsimp only at hv
  split at hv
  · rename_i hvs
    exact ⟨[], hvs.symm⟩
  · exact absurd hv (by simp)

theorem bfFold_mono (cost : E → W) :
    ∀ (l : List (Nat × Nat × E)) (st : BFState W) (v : Nat),
      (st.dist v).isSome = true →
      ((l.foldl (bfRelaxEdge cost) st).dist v).isSome = true := by
  intro l
  induction l with
  | nil => exact fun st v h => h
  | cons e l ih =>
      intro st v h
      rw [List.foldl_cons]
      exact ih _ v (bfRelaxEdge_mono cost st e v h)

theorem bfFinal_src (g : Graph N E) (source : Nat) (cost : E → W) :
    ((bfFinal g source cost).dist source).isSome = true := by
  unfold bfFinal
  have main : ∀ (k : Nat) (st : BFState W), (st.dist source).isSome = true →
      (((fun st => bfPass g cost st)^[k] st).dist source).isSome = true := by
    intro k
    induction k with
    | zero => exact fun st h => h
    | succ k ihk =>
        intro st h
        rw [Function.iterate_succ_apply]
        exact ihk _ (bfFold_mono cost (dedges g) st source h)
  refine main _ _ ?_
  dsimp only
  rw [if_pos rfl]
  rfl

theorem bfRelaxable_false_spec {g : Graph N E} {cost : E → W} {st : BFState W}
    (h : bfRelaxable g cost st = false) :
    ∀ e ∈ dedges g, ∀ ds, st.dist e.1 = some ds →
      ∃ dt, st.dist e.2.1 = some dt ∧ dt ≤ ds + cost e.2.2 := by
  unfold bfRelaxable at h
  rw [List.any_eq_false] at h
  intro e he ds hds
  have hb := h e he
  rw [hds] at hb
  revert hb
  split
  · rename_i heq
    exact fun _ => Option.noConfusion heq
  · rename_i dt hdt
    injection hdt with hdt
    subst hdt
    split
    · intro hb
      exact absurd rfl hb
    · rename_i dt2 hdt2
      intro hb
      refine ⟨dt2, hdt2, ?_⟩
      exact not_lt.mp (fun hlt => hb (decide_eq_true hlt))

theorem bf_telescope {g : Graph N E} {cost : E → W} {st : BFState W}
    (hrel : bfRelaxable g cost st = false) :
    ∀ (es : List (Nat × Nat × E)) (a b : Nat), IsEWalk g a es b →
      ∀ da, st.dist a = some da →
      ∃ db, st.dist b = some db ∧ db ≤ da + ewalkCost cost es := by
  intro es
  induction es with
  | nil =>
      intro a b hw da hda
      have hab : a = b := hw
      refine ⟨da, hab ▸ hda, ?_⟩
      have : ewalkCost cost ([] : List (Nat × Nat × E)) = 0 := rfl
      rw [this, add_zero]
  | cons e es ih =>
      intro a b hw da hda
      obtain ⟨he, hsrc, hrest⟩ := hw
      obtain ⟨dt, hdt, hle1⟩ := bfRelaxable_false_spec hrel e he da (hsrc ▸ hda)
      obtain ⟨db, hdb, hle2⟩ := ih e.2.1 b hrest dt hdt
      refine ⟨db, hdb, ?_⟩
      have hcost : ewalkCost cost (e :: es) = cost e.2.2 + ewalkCost cost es := by
        unfold ewalkCost
        rw [List.map_cons, List.sum_cons]
      rw [hcost, ← add_assoc]
      exact le_trans hle2 (add_le_add_right hle1 _)

theorem bellmanFord_not_neg_relaxable {g : Graph N E} {source target : Nat}
    {cost : E → W} (h : bellmanFord g source target cost ≠ BFResult.negativeCycle) :
    bfRelaxable g cost (bfFinal g source cost) = false := by
  by_cases hrel : bfRelaxable g cost (bfFinal g source cost) = true
  · exfalso
    apply h
    unfold bellmanFord
    rw [if_pos hrel]
  · exact Bool.not_eq_true _ ▸ hrel

theorem dijkstra_none_iff {g : Graph N E} {source target : Nat} (hwf : WF g)
    (cost : E → W) (hs : source ∈ nodeIds g) :
    dijkstra g source target cost = none ↔ ¬ Reaches g source target :=
  spLoop_none_iff hwf cost _ hs

theorem astar_none_iff {g : Graph N E} {source target : Nat} (hwf : WF g)
    (cost : E → W) (heuristic : N → N → W) (hs : source ∈ nodeIds g) :
    astar g source target cost heuristic = none ↔ ¬ Reaches g source target :=
  spLoop_none_iff hwf cost _ hs

end EG

namespace EG

variable {N E : Type}

theorem dedges_flip {g : Graph N E} (hund : g.kind = Kind.undirected)
    {e : Nat × Nat × E} (he : e ∈ dedges g) : eflip e ∈ dedges g := by
  unfold dedges at he ⊢
  rw [List.mem_flatMap] at he ⊢
  obtain ⟨q, hq, hin⟩ := he
  refine ⟨q, hq, ?_⟩
  rw [hund] at hin ⊢
  simp only [beq_self_eq_true, if_true] at hin ⊢
  rcases List.mem_cons.mp hin with rfl | hin
  · exact List.mem_cons_of_mem _ (List.mem_singleton.mpr rfl)
  · rcases List.mem_singleton.mp hin with rfl
    exact List.mem_cons_self _ _

theorem isEWalk_single {g : Graph N E} {e : Nat × Nat × E} (he : e ∈ dedges g) :
    IsEWalk g e.1 [e] e.2.1 :=
  ⟨he, rfl, rfl⟩

theorem isEWalk_reverse {g : Graph N E} (hund : g.kind = Kind.undirected) :
    ∀ (es : List (Nat × Nat × E)) (u v : Nat), IsEWalk g u es v →
      IsEWalk g v ((es.map eflip).reverse) u := by
  intro es
  induction es with
  | nil =>
      intro u v hw
      have huv : u = v := hw
      exact huv.symm
  | cons e es ih =>
      intro u v hw
      obtain ⟨he, hsrc, hrest⟩ := hw
      rw [List.map_cons, List.reverse_cons]
      refine isEWalk_append _ _ v e.2.1 u (ih e.2.1 v hrest) ?_
      have := isEWalk_single (dedges_flip hund he)
      rw [show (eflip e).1 = e.2.1 from rfl, show (eflip e).2.1 = e.1 from rfl] at this
      rw [← hsrc]
      exact this

theorem isEWalk_split {g : Graph N E} :
    ∀ (es₁ es₂ : List (Nat × Nat × E)) (u v : Nat),
      IsEWalk g u (es₁ ++ es₂) v → ∃ w, IsEWalk g u es₁ w ∧ IsEWalk g w es₂ v := by
  intro es₁
  induction es₁ with
  | nil => exact fun es₂ u v hw => ⟨u, rfl, hw⟩
  | cons e es ih =>
      intro es₂ u v hw
      obtain ⟨he, hsrc, hrest⟩ := hw
      obtain ⟨w, hw1, hw2⟩ := ih es₂ e.2.1 v hrest
      exact ⟨w, ⟨he, hsrc, hw1⟩, hw2⟩

theorem properPred_dedge {g : Graph N E} {P : Nat → Prop}
    (hund : g.kind = Kind.undirected) (hp : ProperPred g P) :
    ∀ e ∈ dedges g, (P e.1 ↔ ¬ P e.2.1) := by
  intro e he
  unfold dedges at he
  rw [List.mem_flatMap] at he
  obtain ⟨q, hq, hin⟩ := he
  have hpq := hp q hq
  rcases List.mem_cons.mp hin with rfl | hin
  · exact hpq
  · rw [hund] at hin
    simp only [beq_self_eq_true, if_true] at hin
    rcases List.mem_singleton.mp hin with rfl
    constructor
    · intro ht hs
      exact (hpq.mp hs) ht
    · intro hns
      by_contra hnt
      exact hns (hpq.mpr hnt)

theorem properPred_walk_parity {g : Graph N E} {P : Nat → Prop}
    (hund : g.kind = Kind.undirected) (hp : ProperPred g P) :
    ∀ (es : List (Nat × Nat × E)) (u v : Nat), IsEWalk g u es v →
      (Even es.length → (P u ↔ P v)) ∧ (Odd es.length → (P u ↔ ¬ P v)) := by
  intro es
  induction es with
  | nil =>
      intro u v hw
      have huv : u = v := hw
      subst huv
      refine ⟨fun _ => Iff.rfl, fun hodd => ?_⟩
      exact absurd hodd (by simp)
  | cons e es ih =>
      intro u v hw
      obtain ⟨he, hsrc, hrest⟩ := hw
      have hstep : P u ↔ ¬ P e.2.1 := hsrc ▸ properPred_dedge hund hp e he
      obtain ⟨hev, hod⟩ := ih e.2.1 v hrest
      have hlen : (e :: es).length = es.length + 1 := rfl
      constructor
      · intro heven
        have : Odd es.length := by
          rw [hlen] at heven
          rcases Nat.even_or_odd es.length with h | h
          · exact absurd heven (by simp [Nat.even_add_one, h])
          · exact h
        have hiff := hod this
        tauto
      · intro hodd
        have : Even es.length := by
          rw [hlen] at hodd
          rcases Nat.even_or_odd es.length with h | h
          · exact h
          · exfalso
            rw [Nat.odd_iff] at h hodd
            omega
        have heq := hev this
        tauto

theorem properPred_noOddClosedWalk {g : Graph N E} {P : Nat → Prop}
    (hund : g.kind = Kind.undirected) (hp : ProperPred g P) :
    NoOddClosedWalk g := by
  intro u es hw hodd
  have := (properPred_walk_parity hund hp es u u hw).2 hodd
  by_cases hu : P u
  · exact (this.mp hu) hu
  · exact hu (by tauto)

theorem noOdd_parity_unique {g : Graph N E} (hund : g.kind = Kind.undirected)
    (hno : NoOddClosedWalk g) {x y : Nat}
    {es₁ es₂ : List (Nat × Nat × E)}
    (h1 : IsEWalk g x es₁ y) (h2 : IsEWalk g x es₂ y) :
    (Odd es₁.length ↔ Odd es₂.length) := by
  have hrev := isEWalk_reverse hund es₂ x y h2
  have hclosed := isEWalk_append es₁ _ x y x h1 hrev
  have hlen : (es₁ ++ (es₂.map eflip).reverse).length = es₁.length + es₂.length := by
    rw [List.length_append, List.length_reverse, List.length_map]
  have heven : ¬ Odd (es₁.length + es₂.length) := by
    rw [← hlen]
    exact hno x _ hclosed
  rcases Nat.even_or_odd es₁.length with h1 | h1 <;>
    rcases Nat.even_or_odd es₂.length with h2 | h2
  · exact iff_of_false (Nat.even_iff_not_odd.mp h1) (Nat.even_iff_not_odd.mp h2)
  · exact absurd (Even.add_odd h1 h2) heven
  · exact absurd (Odd.add_even h1 h2) heven
  · exact iff_of_true h1 h2

theorem nodeAt_zero (u : Nat) (es : List (Nat × Nat × E)) : nodeAt u es 0 = u := rfl

theorem walkNodes_length (u : Nat) (es : List (Nat × Nat × E)) :
    (walkNodes u es).length = es.length + 1 := by
  unfold walkNodes
  rw [List.length_cons, List.length_map]

theorem nodeAt_cons_of_le {i : Nat} {es : List (Nat × Nat × E)} (h : i ≤ es.length)
    (u : Nat) (e : Nat × Nat × E) : nodeAt u (e :: es) (i + 1) = nodeAt e.2.1 es i := by
  unfold nodeAt walkNodes
  rw [List.map_cons, List.getD_cons_succ]
  have hlt : i < (e.2.1 :: es.map (fun e => e.2.1)).length := by
    rw [List.length_cons, List.length_map]
    omega
  rw [List.getD_eq_getElem _ _ hlt, List.getD_eq_getElem _ _ hlt]

theorem isEWalk_take_drop {g : Graph N E} :
    ∀ (es : List (Nat × Nat × E)) (u v : Nat), IsEWalk g u es v →
      ∀ i, i ≤ es.length →
      IsEWalk g u (es.take i) (nodeAt u es i) ∧
        IsEWalk g (nodeAt u es i) (es.drop i) v := by
  intro es
  induction es with
  | nil =>
      intro u v hw i hi
      have hi0 : i = 0 := Nat.le_zero.mp hi
      subst hi0
      exact ⟨rfl, hw⟩
  | cons e es ih =>
      intro u v hw i hi
      obtain ⟨he, hsrc, hrest⟩ := hw
      cases i with
      | zero => exact ⟨rfl, ⟨he, hsrc, hrest⟩⟩
      | succ i =>
          have hi' : i ≤ es.length := Nat.le_of_succ_le_succ hi
          obtain ⟨h1, h2⟩ := ih e.2.1 v hrest i hi'
          rw [nodeAt_cons_of_le hi']
          exact ⟨⟨he, hsrc, h1⟩, h2⟩

theorem nodeAt_add :
    ∀ (es : List (Nat × Nat × E)) (u i k : Nat), i + k ≤ es.length →
      nodeAt (nodeAt u es i) (es.drop i) k = nodeAt u es (i + k) := by
  intro es
  induction es with
  | nil =>
      intro u i k h
      have : i = 0 ∧ k = 0 := by
        rw [List.length_nil] at h
        omega
      obtain ⟨rfl, rfl⟩ := this
      rfl
  | cons e es ih =>
      intro u i k h
      cases i with
      | zero =>
          rw [Nat.zero_add]
          rfl
      | succ i =>
          rw [List.length_cons] at h
          rw [nodeAt_cons_of_le (by omega), List.drop_succ_cons,
            ih e.2.1 i k (by omega),
            show i + 1 + k = (i + k) + 1 from by omega,
            nodeAt_cons_of_le (by omega)]

theorem oddClosedWalk_oddCycle {g : Graph N E} :
    ∀ (n : Nat) (es : List (Nat × Nat × E)) (u : Nat), es.length ≤ n →
      IsEWalk g u es u → Odd es.length → HasOddCycle g := by
  intro n
  induction n using Nat.strong_induction_on with
  | _ n ih =>
      intro es u hlen hw hodd
      by_cases hnd : (walkNodes u es).dropLast.Nodup
      · exact ⟨u, es, hw, hodd, hnd⟩
      · have hlen1 : 1 ≤ es.length := by
          rcases hodd with ⟨m, hm⟩
          omega
        have hdl : (walkNodes u es).dropLast.length = es.length := by
          rw [List.length_dropLast, walkNodes_length]
          omega
        have hconv : ∀ (c : Fin ((walkNodes u es).dropLast.length)),
            (walkNodes u es).dropLast.get c = nodeAt u es c.val := by
          intro c
          have hc : c.val < (walkNodes u es).length := by
            have hc2 := c.isLt
            rw [walkNodes_length]
            omega
          rw [List.get_eq_getElem, List.getElem_dropLast]
          unfold nodeAt
          rw [List.getD_eq_getElem _ _ hc]
        have main : ∀ i j, i < j → j < es.length → nodeAt u es i = nodeAt u es j →
            HasOddCycle g := by
          intro i j hij hj hndat
          obtain ⟨hw1, hw2⟩ := isEWalk_take_drop es u u hw i (by omega)
          have hk_le : (j - i) ≤ (es.drop i).length := by
            rw [List.length_drop]
            omega
          obtain ⟨hw3, hw4⟩ := isEWalk_take_drop (es.drop i) _ u hw2 (j - i) hk_le
          have hm : nodeAt (nodeAt u es i) (es.drop i) (j - i) = nodeAt u es j := by
            rw [nodeAt_add es u i (j - i) (by omega),
              show i + (j - i) = j from by omega]
          rw [hm, ← hndat] at hw3 hw4
          have houter : IsEWalk g u (es.take i ++ (es.drop i).drop (j - i)) u :=
            isEWalk_append _ _ u (nodeAt u es i) u hw1 hw4
          have hlm : ((es.drop i).take (j - i)).length = j - i := by
            rw [List.length_take, List.length_drop]
            omega
          have hlo : (es.take i ++ (es.drop i).drop (j - i)).length =
              i + (es.length - j) := by
            rw [List.length_append, List.length_take, List.length_drop,
              List.length_drop]
            omega
          rcases Nat.even_or_odd (j - i) with hpar | hpar
          · have houter_odd : Odd (es.take i ++ (es.drop i).drop (j - i)).length := by
              rw [hlo, Nat.odd_iff]
              rw [Nat.odd_iff] at hodd
              rw [Nat.even_iff] at hpar
              omega
            exact ih (es.length - 1) (by omega) _ u (by rw [hlo]; omega)
              houter houter_odd
          · exact ih (es.length - 1) (by omega) _ _ (by rw [hlm]; omega) hw3
              (by rw [hlm]; exact hpar)
        rw [List.nodup_iff_injective_get, Function.not_injective_iff] at hnd
        obtain ⟨a, b, heq, hne⟩ := hnd
        have ha := a.isLt
        have hb := b.isLt
        rcases Nat.lt_trichotomy a.val b.val with hab | hab | hab
        · exact main a.val b.val hab (by omega) (by rw [← hconv a, ← hconv b, heq])
        · exact absurd (Fin.ext hab) hne
        · exact main b.val a.val hab (by omega) (by rw [← hconv a, ← hconv b, heq])

theorem reaches_symm {g : Graph N E} (hund : g.kind = Kind.undirected) {u v : Nat}
    (h : Reaches g u v) : Reaches g v u := by
  obtain ⟨es, hes⟩ := h
  exact ⟨_, isEWalk_reverse hund es u v hes⟩

theorem reaches_trans {g : Graph N E} {u v w : Nat}
    (h1 : Reaches g u v) (h2 : Reaches g v w) : Reaches g u w := by
  obtain ⟨es1, hes1⟩ := h1
  obtain ⟨es2, hes2⟩ := h2
  exact ⟨es1 ++ es2, isEWalk_append es1 es2 u v w hes1 hes2⟩

theorem coloring_of_root {g : Graph N E} (hund : g.kind = Kind.undirected)
    (hwf : WF g) (hno : NoOddClosedWalk g) (root : Nat → Nat)
    (hr : ∀ v ∈ nodeIds g, Reaches g (root v) v)
    (hradj : ∀ q ∈ g.edges, root q.2.source = root q.2.target) :
    ProperPred g (fun v => ∃ es, IsEWalk g (root v) es v ∧ Odd es.length) := by
  intro q hq
  show (∃ es, IsEWalk g (root q.2.source) es q.2.source ∧ Odd es.length) ↔
    ¬(∃ es, IsEWalk g (root q.2.target) es q.2.target ∧ Odd es.length)
  have ha : q.2.source ∈ nodeIds g := (hwf q hq).1
  have hedge : (q.2.source, q.2.target, q.2.payload) ∈ dedges g :=
    mem_dedges_of_mem_edges hq
  obtain ⟨Wa, hWa⟩ := hr q.2.source ha
  have hWb : IsEWalk g (root q.2.source)
      (Wa ++ [(q.2.source, q.2.target, q.2.payload)]) q.2.target :=
    isEWalk_append _ _ _ q.2.source q.2.target hWa (isEWalk_single hedge)
  have hlb : (Wa ++ [(q.2.source, q.2.target, q.2.payload)]).length = Wa.length + 1 := by
    rw [List.length_append, List.length_singleton]
  have hPa : (∃ es, IsEWalk g (root q.2.source) es q.2.source ∧ Odd es.length) ↔
      Odd Wa.length := by
    constructor
    · rintro ⟨es, hes, hodd⟩
      exact (noOdd_parity_unique hund hno hes hWa).mp hodd
    · intro h
      exact ⟨Wa, hWa, h⟩
  have hPb : (∃ es, IsEWalk g (root q.2.target) es q.2.target ∧ Odd es.length) ↔
      Odd (Wa.length + 1) := by
    rw [← hradj q hq]
    constructor
    · rintro ⟨es, hes, hodd⟩
      have := (noOdd_parity_unique hund hno hes hWb).mp hodd
      rwa [hlb] at this
    · intro h
      exact ⟨_, hWb, by rwa [hlb]⟩
  rw [hPa, hPb, Nat.odd_iff, Nat.odd_iff]
  omega

theorem noOdd_to_coloring {g : Graph N E} (hund : g.kind = Kind.undirected)
    (hwf : WF g) (hno : NoOddClosedWalk g) : ∃ P : Nat → Prop, ProperPred g P := by
  classical
  refine ⟨_, coloring_of_root hund hwf hno
    (fun v => sInf {w | w ∈ nodeIds g ∧ Reaches g v w}) ?_ ?_⟩
  · intro v hv
    have hne : {w | w ∈ nodeIds g ∧ Reaches g v w}.Nonempty := ⟨v, hv, ⟨[], rfl⟩⟩
    have hmem := Nat.sInf_mem hne
    exact reaches_symm hund hmem.2
  · intro q hq
    have hedge : (q.2.source, q.2.target, q.2.payload) ∈ dedges g :=
      mem_dedges_of_mem_edges hq
    have hab : Reaches g q.2.source q.2.target := ⟨[_], isEWalk_single hedge⟩
    have hba : Reaches g q.2.target q.2.source := reaches_symm hund hab
    have hseteq : {w | w ∈ nodeIds g ∧ Reaches g q.2.source w} =
        {w | w ∈ nodeIds g ∧ Reaches g q.2.target w} := by
      ext w
      simp only [Set.mem_setOf_eq]
      constructor
      · rintro ⟨h1, h2⟩
        exact ⟨h1, reaches_trans hba h2⟩
      · rintro ⟨h1, h2⟩
        exact ⟨h1, reaches_trans hab h2⟩
    exact congrArg sInf hseteq

theorem properColoringL_iff {g : Graph N E} {S : List Nat} :
    properColoringL g S = true ↔ ProperPred g (fun v => v ∈ S) := by
  unfold properColoringL ProperPred
  rw [List.all_eq_true]
  refine forall_congr' fun q => forall_congr' fun hq => ?_
  rw [bne_iff_ne, ne_eq, decide_eq_decide]
  tauto

theorem bipartiteColoring_isSome_iff {g : Graph N E} (hwf : WF g) :
    (bipartiteColoring g).isSome = true ↔ ∃ P : Nat → Prop, ProperPred g P := by
  constructor
  · intro h
    obtain ⟨S, hS⟩ := Option.isSome_iff_exists.mp h
    have hfound := List.find?_some hS
    exact ⟨fun v => v ∈ S, properColoringL_iff.mp hfound⟩
  · rintro ⟨P, hP⟩
    classical
    have hsub : List.Sublist ((g.nodes.map Prod.fst).filter (fun v => decide (P v)))
        (g.nodes.map Prod.fst) := List.filter_sublist _
    have hproper : properColoringL g
        ((g.nodes.map Prod.fst).filter (fun v => decide (P v))) = true := by
      rw [properColoringL_iff]
      intro q hq
      have hsrc : q.2.source ∈ g.nodes.map Prod.fst := by
        have := (hwf q hq).1
        unfold nodeIds at this
        rwa [List.mem_toFinset] at this
      have htgt : q.2.target ∈ g.nodes.map Prod.fst := by
        have := (hwf q hq).2
        unfold nodeIds at this
        rwa [List.mem_toFinset] at this
      have hmem : ∀ x, x ∈ g.nodes.map Prod.fst →
          ((x ∈ (g.nodes.map Prod.fst).filter (fun v => decide (P v))) ↔ P x) := by
        intro x hx
        rw [List.mem_filter, decide_eq_true_iff]
        exact ⟨fun h => h.2, fun h => ⟨hx, h⟩⟩
      show (q.2.source ∈ (g.nodes.map Prod.fst).filter (fun v => decide (P v))) ↔
        ¬(q.2.target ∈ (g.nodes.map Prod.fst).filter (fun v => decide (P v)))
      rw [hmem _ hsrc, hmem _ htgt]
      exact hP q hq
    have hmemsub : (g.nodes.map Prod.fst).filter (fun v => decide (P v)) ∈
        (g.nodes.map Prod.fst).sublists := List.mem_sublists.mpr hsub
    unfold bipartiteColoring
    cases hfind : (g.nodes.map Prod.fst).sublists.find?
        (fun S => properColoringL g S) with
    | some S => rfl
    | none =>
        rw [List.find?_eq_none] at hfind
        exact absurd hproper (hfind _ hmemsub)

end EG

/-- Claim C1: for every starting snapshot and every sequence of node/edge
additions, performing them all inside a single `withMutations` scope yields a
graph whose node count and edge count equal those of the graph obtained by
folding the same additions as individual single-operation edits over
successive snapshots. -/
theorem claim_C1_scope_equals_single_edits {N E : Type}
    (g : EG.Graph N E) (ops : List (EG.Op N E)) :
    EG.nodeCount (EG.mutate g (fun m => EG.applyOps m ops)) =
      EG.nodeCount (ops.foldl EG.applyOpG g) ∧
    EG.edgeCount (EG.mutate g (fun m => EG.applyOps m ops)) =
      EG.edgeCount (ops.foldl EG.applyOpG g) := by
  rw [EG.mutate_applyOps_eq_foldl]
  exact ⟨rfl, rfl⟩

/-- Claim C2: running `withMutations` over the snapshot at position `r` of the
store only appends a new snapshot: every previously held snapshot, in
particular the input graph itself, is unchanged — same node count, edge
count, payloads and adjacency. -/
theorem claim_C2_withMutations_frame {N E : Type}
    (store : List (EG.Graph N E)) (r : Nat)
    (body : EG.MutableGraph N E → EG.MutableGraph N E)
    (h : r < store.length) :
    (∀ i, i < store.length → ((EG.mutateRef store r body).1)[i]? = store[i]?) ∧
    ((EG.mutateRef store r body).1)[r]? = store[r]? ∧
    (((EG.mutateRef store r body).1)[r]?).map EG.nodeCount = (store[r]?).map EG.nodeCount ∧
    (((EG.mutateRef store r body).1)[r]?).map EG.edgeCount = (store[r]?).map EG.edgeCount ∧
    (∀ i j, (((EG.mutateRef store r body).1)[j]?).map (fun g => EG.getNode g i) =
      (store[j]?).map (fun g => EG.getNode g i) ∨ store.length ≤ j) ∧
    (∀ i j, (((EG.mutateRef store r body).1)[j]?).map (fun g => EG.outgoing g i) =
      (store[j]?).map (fun g => EG.outgoing g i) ∨ store.length ≤ j) ∧
    (∀ i j, (((EG.mutateRef store r body).1)[j]?).map (fun g => EG.incoming g i) =
      (store[j]?).map (fun g => EG.incoming g i) ∨ store.length ≤ j) := by
  have hsome : ∃ g, store[r]? = some g := ⟨store[r], by rw [List.getElem?_eq_getElem h]⟩
  obtain ⟨g, hg⟩ := hsome
  have hres : (EG.mutateRef store r body).1 = store ++ [EG.mutate g body] := by
    unfold EG.mutateRef
    rw [hg]
  have hpres : ∀ i, i < store.length → ((EG.mutateRef store r body).1)[i]? = store[i]? := by
    intro i hi
    rw [hres, List.getElem?_append, if_pos hi]
  refine ⟨hpres, hpres r h, ?_, ?_, ?_, ?_, ?_⟩
  · rw [hpres r h]
  · rw [hpres r h]
  · intro i j
    by_cases hj : j < store.length
    · exact Or.inl (by rw [hpres j hj])
    · exact Or.inr (Nat.le_of_not_lt hj)
  · intro i j
    by_cases hj : j < store.length
    · exact Or.inl (by rw [hpres j hj])
    · exact Or.inr (Nat.le_of_not_lt hj)
  · intro i j
    by_cases hj : j < store.length
    · exact Or.inl (by rw [hpres j hj])
    · exact Or.inr (Nat.le_of_not_lt hj)

/-- Witness for claim C2 at a concrete store: a one-snapshot store holding an
empty directed graph, mutated by adding a node. -/
theorem claim_C2_witness :
    (0 < [(EG.directed : EG.Graph String Nat)].length) ∧
    ((EG.mutateRef [(EG.directed : EG.Graph String Nat)] 0
        (fun m => (EG.addNode m "A").1)).1)[0]? =
      [(EG.directed : EG.Graph String Nat)][0]? :=
  ⟨by decide,
    (claim_C2_withMutations_frame [(EG.directed : EG.Graph String Nat)] 0
      (fun m => (EG.addNode m "A").1) (by decide)).2.1⟩

/-- Claim C3: for every directed graph, `isAcyclic` is true exactly when
`topologicalOrder` succeeds (does not signal `CyclicGraph`), and whenever it
succeeds, every edge (u,v) of the graph has u strictly before v in the
returned order. -/
theorem claim_C3_acyclic_iff_topo {N E : Type}
    (g : EG.Graph N E) (hwf : EG.WF g) (hk : g.kind = EG.Kind.directed) :
    (EG.isAcyclic g = true ↔ (EG.topo g).isSome = true) ∧
    (∀ l, EG.topo g = some l →
      ∀ q ∈ g.edges, EG.Before l q.2.source q.2.target) := by
  constructor
  · rw [EG.isAcyclic_iff hwf, EG.topo_isSome_iff hwf]
  · intro l htopo q hq
    have htopo' : EG.topoAux g (EG.nodeIds g) = some l := htopo
    have hspec := EG.topoAux_some_spec (EG.nodeIds g).card (EG.nodeIds g)
      (Nat.le_refl _) l htopo'
    exact hspec.2.2 _ (EG.mem_dedges_of_mem_edges hq) (hwf q hq).1 (hwf q hq).2

/-- Witness for claim C3: the concrete three-node chain 0 → 1 → 2. -/
theorem claim_C3_witness :
    EG.WF (EG.mutate (EG.directed : EG.Graph String Nat) (fun m =>
      (EG.addEdge ((EG.addEdge ((EG.addNode ((EG.addNode ((EG.addNode m "A").1)
        "B").1) "C").1) 0 1 1).1) 1 2 2).1)) ∧
    (EG.isAcyclic (EG.mutate (EG.directed : EG.Graph String Nat) (fun m =>
      (EG.addEdge ((EG.addEdge ((EG.addNode ((EG.addNode ((EG.addNode m "A").1)
        "B").1) "C").1) 0 1 1).1) 1 2 2).1)) = true ↔
      (EG.topo (EG.mutate (EG.directed : EG.Graph String Nat) (fun m =>
      (EG.addEdge ((EG.addEdge ((EG.addNode ((EG.addNode ((EG.addNode m "A").1)
        "B").1) "C").1) 0 1 1).1) 1 2 2).1))).isSome = true) :=
  ⟨by decide,
    (claim_C3_acyclic_iff_topo
      (EG.mutate (EG.directed : EG.Graph String Nat) (fun m =>
        (EG.addEdge ((EG.addEdge ((EG.addNode ((EG.addNode ((EG.addNode m "A").1)
          "B").1) "C").1) 0 1 1).1) 1 2 2).1))
      (by decide) (by decide)).1⟩

/-- Claim C4: for every directed graph containing a cycle reachable from the
source whose edge costs sum to a negative value, Bellman-Ford from that
source signals `NegativeCycle` and does not return any finite distance. -/
theorem claim_C4_bellmanFord_negative_cycle {N E W : Type}
    [LinearOrderedCancelAddCommMonoid W]
    (g : EG.Graph N E) (source target : Nat) (cost : E → W)
    (hk : g.kind = EG.Kind.directed)
    (hcyc : EG.NegCycleReachable g source cost) :
    EG.bellmanFord g source target cost = EG.BFResult.negativeCycle := by
  by_cases hrel : EG.bfRelaxable g cost (EG.bfFinal g source cost) = true
  · unfold EG.bellmanFord
    rw [if_pos hrel]
  · exfalso
    have hrel' : EG.bfRelaxable g cost (EG.bfFinal g source cost) = false :=
      Bool.not_eq_true _ ▸ hrel
    obtain ⟨u, es1, es2, hw1, hw2, hne2, hneg⟩ := hcyc
    obtain ⟨d0, hd0⟩ := Option.isSome_iff_exists.mp (EG.bfFinal_src g source cost)
    obtain ⟨du, hdu, _⟩ := EG.bf_telescope hrel' es1 source u hw1 d0 hd0
    obtain ⟨du2, hdu2, hle⟩ := EG.bf_telescope hrel' es2 u u hw2 du hdu
    rw [hdu] at hdu2
    injection hdu2 with hd2
    subst hd2
    have h0 : (0 : W) ≤ EG.ewalkCost cost es2 := by
      have hle' : du + 0 ≤ du + EG.ewalkCost cost es2 := by
        rw [add_zero]
        exact hle
      exact le_of_add_le_add_left hle'
    exact absurd h0 (not_le.mpr hneg)

/-- Witness for claim C4: the two-node graph with edges 0→1 of cost −2 and
1→0 of cost 1; the cycle 0→1→0 has total cost −1 < 0 and is reachable from
source 0. -/
theorem claim_C4_witness :
    ((EG.mutate (EG.directed : EG.Graph String Int) (fun m =>
      (EG.addEdge ((EG.addEdge ((EG.addNode ((EG.addNode m "A").1) "B").1)
        0 1 (-2)).1) 1 0 1).1)).kind = EG.Kind.directed) ∧
    EG.bellmanFord
      (EG.mutate (EG.directed : EG.Graph String Int) (fun m =>
        (EG.addEdge ((EG.addEdge ((EG.addNode ((EG.addNode m "A").1) "B").1)
          0 1 (-2)).1) 1 0 1).1))
      0 1 (fun w => w) = EG.BFResult.negativeCycle :=
  ⟨by decide,
    claim_C4_bellmanFord_negative_cycle
      (EG.mutate (EG.directed : EG.Graph String Int) (fun m =>
        (EG.addEdge ((EG.addEdge ((EG.addNode ((EG.addNode m "A").1) "B").1)
          0 1 (-2)).1) 1 0 1).1))
      0 1 (fun w => w) (by decide)
      ⟨0, [], [(0, 1, -2), (1, 0, 1)], by decide, by decide, by decide, by decide⟩⟩

/-- Claim C5: each shortest-path query returns an absent value exactly when no
path from source to target exists, and otherwise a `{ distance, path }`
record; Dijkstra and A* have no error outcome at all, and Bellman-Ford, when
it does not signal `NegativeCycle`, likewise returns the absent value exactly
for unreachability. -/
theorem claim_C5_unreachable_absent {N E W : Type} [LinearOrderedAddCommMonoid W]
    (g : EG.Graph N E) (source target : Nat) (cost : E → W) (heuristic : N → N → W)
    (hwf : EG.WF g) (hs : source ∈ EG.nodeIds g) :
    (EG.dijkstra g source target cost = none ↔ ¬ EG.Reaches g source target) ∧
    (EG.astar g source target cost heuristic = none ↔ ¬ EG.Reaches g source target) ∧
    (EG.Reaches g source target →
      ∃ d p, EG.dijkstra g source target cost = some (d, p)) ∧
    (EG.bellmanFord g source target cost ≠ EG.BFResult.negativeCycle →
      ((EG.bellmanFord g source target cost = EG.BFResult.result none ↔
          ¬ EG.Reaches g source target) ∧
        (EG.Reaches g source target →
          ∃ d p, EG.bellmanFord g source target cost =
            EG.BFResult.result (some (d, p))))) := by
  refine ⟨EG.dijkstra_none_iff hwf cost hs,
    EG.astar_none_iff hwf cost heuristic hs, ?_, ?_⟩
  · intro hr
    cases h : EG.dijkstra g source target cost with
    | none => exact absurd ((EG.dijkstra_none_iff hwf cost hs).mp h) (not_not_intro hr)
    | some r => exact ⟨r.1, r.2, rfl⟩
  · intro hnn
    have hrel := EG.bellmanFord_not_neg_relaxable hnn
    have hiff : EG.bellmanFord g source target cost = EG.BFResult.result none ↔
        (EG.bfFinal g source cost).dist target = none := by
      unfold EG.bellmanFord
      rw [if_neg (by simp [hrel])]
      cases hd : (EG.bfFinal g source cost).dist target with
      | none => simp
      | some d =>
          constructor
          · intro hcon
            injection hcon with hcon
            exact absurd hcon (by simp)
          · intro hcon
            exact Option.noConfusion hcon
    have hdn : (EG.bfFinal g source cost).dist target = none ↔
        ¬ EG.Reaches g source target := by
      constructor
      · intro hnone hr
        obtain ⟨es, hes⟩ := hr
        obtain ⟨d0, hd0⟩ := Option.isSome_iff_exists.mp (EG.bfFinal_src g source cost)
        obtain ⟨dt, hdt, _⟩ := EG.bf_telescope hrel es source target hes d0 hd0
        rw [hnone] at hdt
        exact Option.noConfusion hdt
      · intro hnr
        cases hd : (EG.bfFinal g source cost).dist target with
        | none => rfl
        | some d =>
            exact absurd (EG.bfFinal_reach g source cost target (by rw [hd]; rfl)) hnr
    refine ⟨hiff.trans hdn, ?_⟩
    intro hr
    cases hbf : EG.bellmanFord g source target cost with
    | negativeCycle => exact absurd hbf hnn
    | result r =>
        cases r with
        | none => exact absurd ((hiff.trans hdn).mp hbf) (not_not_intro hr)
        | some r => exact ⟨r.1, r.2, rfl⟩

/-- Witness for claim C5: the two-node graph with no edges; node 1 is
unreachable from node 0, and Dijkstra returns the absent value. -/
theorem claim_C5_witness :
    EG.WF (EG.mutate (EG.directed : EG.Graph String Nat) (fun m =>
      ((EG.addNode ((EG.addNode m "A").1) "B").1))) ∧
    (0 ∈ EG.nodeIds (EG.mutate (EG.directed : EG.Graph String Nat) (fun m =>
      ((EG.addNode ((EG.addNode m "A").1) "B").1)))) ∧
    (EG.dijkstra (EG.mutate (EG.directed : EG.Graph String Nat) (fun m =>
      ((EG.addNode ((EG.addNode m "A").1) "B").1))) 0 1 (fun w => w) = none ↔
      ¬ EG.Reaches (EG.mutate (EG.directed : EG.Graph String Nat) (fun m =>
        ((EG.addNode ((EG.addNode m "A").1) "B").1))) 0 1) :=
  ⟨by decide, by decide,
    (claim_C5_unreachable_absent
      (EG.mutate (EG.directed : EG.Graph String Nat) (fun m =>
        ((EG.addNode ((EG.addNode m "A").1) "B").1)))
      0 1 (fun w => w) (fun _ _ => 0) (by decide) (by decide)).1⟩

/-- Claim C6: in the directed graph with nodes {A,B,C,D} and edges A→B of
cost 1, B→C of cost 2 and A→C of cost 8, Dijkstra from A to C returns
distance 3 along the path [A,B,C] (node indices [0,1,2]). -/
theorem claim_C6_dijkstra_scenario :
    EG.dijkstra
      (EG.mutate (EG.directed : EG.Graph String Nat) (fun m =>
        (EG.addEdge ((EG.addEdge ((EG.addEdge ((EG.addNode ((EG.addNode
          ((EG.addNode ((EG.addNode m "A").1) "B").1) "C").1) "D").1)
          0 1 1).1) 1 2 2).1) 0 2 8).1))
      0 2 (fun w => w) = some (3, [0, 1, 2]) := by
  decide

/-- Claim C7: for every undirected graph, the bipartite check succeeds and
returns a two-coloring exactly when the graph contains no odd-length cycle;
in particular it fails on a 3-cycle and succeeds on a 4-cycle. -/
theorem claim_C7_bipartite_iff_no_odd_cycle {N E : Type} (g : EG.Graph N E)
    (hwf : EG.WF g) (hund : g.kind = EG.Kind.undirected) :
    ((EG.bipartiteColoring g).isSome = true ↔ ¬ EG.HasOddCycle g) ∧
    (EG.bipartiteColoring (EG.mutate (EG.undirected : EG.Graph String Nat) (fun m =>
      (EG.addEdge ((EG.addEdge ((EG.addEdge ((EG.addNode ((EG.addNode
        ((EG.addNode m "A").1) "B").1) "C").1) 0 1 1).1) 1 2 1).1) 2 0 1).1))
      = none) ∧
    ((EG.bipartiteColoring (EG.mutate (EG.undirected : EG.Graph String Nat) (fun m =>
      (EG.addEdge ((EG.addEdge ((EG.addEdge ((EG.addEdge ((EG.addNode ((EG.addNode
        ((EG.addNode ((EG.addNode m "A").1) "B").1) "C").1) "D").1)
        0 1 1).1) 1 2 1).1) 2 3 1).1) 3 0 1).1))).isSome = true) := by
  refine ⟨?_, by decide, by decide⟩
  rw [EG.bipartiteColoring_isSome_iff hwf]
  constructor
  · rintro ⟨P, hP⟩ ⟨u, es, hwk, hodd, _⟩
    exact EG.properPred_noOddClosedWalk hund hP u es hwk hodd
  · intro hnc
    refine EG.noOdd_to_coloring hund hwf ?_
    intro u es hwk hodd
    exact hnc (EG.oddClosedWalk_oddCycle es.length es u (Nat.le_refl _) hwk hodd)

/-- Witness for claim C7: a concrete undirected four-cycle. -/
theorem claim_C7_witness :
    EG.WF (EG.mutate (EG.undirected : EG.Graph String Nat) (fun m =>
      (EG.addEdge ((EG.addEdge ((EG.addEdge ((EG.addEdge ((EG.addNode ((EG.addNode
        ((EG.addNode ((EG.addNode m "A").1) "B").1) "C").1) "D").1)
        0 1 1).1) 1 2 1).1) 2 3 1).1) 3 0 1).1)) ∧
    ((EG.bipartiteColoring (EG.mutate (EG.undirected : EG.Graph String Nat) (fun m =>
      (EG.addEdge ((EG.addEdge ((EG.addEdge ((EG.addEdge ((EG.addNode ((EG.addNode
        ((EG.addNode ((EG.addNode m "A").1) "B").1) "C").1) "D").1)
        0 1 1).1) 1 2 1).1) 2 3 1).1) 3 0 1).1))).isSome = true ↔
      ¬ EG.HasOddCycle (EG.mutate (EG.undirected : EG.Graph String Nat) (fun m =>
      (EG.addEdge ((EG.addEdge ((EG.addEdge ((EG.addEdge ((EG.addNode ((EG.addNode
        ((EG.addNode ((EG.addNode m "A").1) "B").1) "C").1) "D").1)
        0 1 1).1) 1 2 1).1) 2 3 1).1) 3 0 1).1))) :=
  ⟨by decide,
    (claim_C7_bipartite_iff_no_odd_cycle
      (EG.mutate (EG.undirected : EG.Graph String Nat) (fun m =>
        (EG.addEdge ((EG.addEdge ((EG.addEdge ((EG.addEdge ((EG.addNode ((EG.addNode
          ((EG.addNode ((EG.addNode m "A").1) "B").1) "C").1) "D").1)
          0 1 1).1) 1 2 1).1) 2 3 1).1) 3 0 1).1))
      (by decide) (by decide)).1⟩

/-- Claim C8: for every directed graph, reversing twice restores the graph
exactly — the same node and edge payloads and the same adjacency, every
edge's source and target back in place. -/
theorem claim_C8_reverse_involution {N E : Type}
    (g : EG.Graph N E) (h : g.kind = EG.Kind.directed) :
    EG.reverse (EG.reverse g) = g := by
  obtain ⟨k, nodes, edges, nn, ne⟩ := g
  simp only at h
  subst h
  simp only [EG.reverse]
  rw [EG.map_edgeSwap_edgeSwap]

/-- Witness for claim C8: a concrete two-node directed graph with one edge. -/
theorem claim_C8_witness :
    ((EG.mutate (EG.directed : EG.Graph String Nat) (fun m =>
      ((EG.addEdge ((EG.addNode ((EG.addNode m "A").1) "B").1) 0 1 7).1))).kind
        = EG.Kind.directed) ∧
    EG.reverse (EG.reverse (EG.mutate (EG.directed : EG.Graph String Nat) (fun m =>
      ((EG.addEdge ((EG.addNode ((EG.addNode m "A").1) "B").1) 0 1 7).1)))) =
      EG.mutate (EG.directed : EG.Graph String Nat) (fun m =>
      ((EG.addEdge ((EG.addNode ((EG.addNode m "A").1) "B").1) 0 1 7).1)) :=
  ⟨by decide, claim_C8_reverse_involution _ (by decide)⟩

/-- Claim C9: within one lineage of snapshots (a sequence of mutation
operations run from the empty graph), node and edge indices are assigned
monotonically by `addNode`/`addEdge` starting at 0 — the next `addNode`
returns exactly the number of earlier `addNode` operations — every stored key
stays below its allocator counter, the counters never decrease, and an index
that has been removed (stale: below the counter and absent) is never
reassigned to a new element, so a stale index never aliases a different node
or edge. -/
theorem claim_C9_index_allocation {N E : Type}
    (k : EG.Kind) (pre ext : List (EG.MOp N E)) (p : N) (i j : Nat)
    (hi : i < (EG.runOps k pre).nextNode)
    (hiabs : ∀ q ∈ (EG.runOps k pre).nodes, q.1 ≠ i)
    (hj : j < (EG.runOps k pre).nextEdge)
    (hjabs : ∀ q ∈ (EG.runOps k pre).edges, q.1 ≠ j) :
    (EG.addNode (EG.runOps k pre) p).2 = EG.countAddNodes pre ∧
    (EG.runOps k pre).nextNode = EG.countAddNodes pre ∧
    (∀ q ∈ (EG.runOps k pre).nodes, q.1 < (EG.runOps k pre).nextNode) ∧
    (∀ q ∈ (EG.runOps k pre).edges, q.1 < (EG.runOps k pre).nextEdge) ∧
    (EG.runOps k pre).nextNode ≤ (EG.runOps k (pre ++ ext)).nextNode ∧
    (EG.runOps k pre).nextEdge ≤ (EG.runOps k (pre ++ ext)).nextEdge ∧
    (∀ q ∈ (EG.runOps k (pre ++ ext)).nodes, q.1 ≠ i) ∧
    (∀ q ∈ (EG.runOps k (pre ++ ext)).edges, q.1 ≠ j) := by
  have hrun : ∀ ext', EG.runOps k (pre ++ ext') = ext'.foldl EG.applyMOp (EG.runOps k pre) := by
    intro ext'
    unfold EG.runOps
    rw [List.foldl_append]
  have hcount : (EG.runOps k pre).nextNode = EG.countAddNodes pre := by
    unfold EG.runOps
    rw [EG.foldl_applyMOp_nextNode]
    simp [EG.beginMutation, EG.empty]
  have hinv := EG.runOps_allocInv k pre
  refine ⟨hcount, hcount, hinv.1, hinv.2, ?_, ?_, ?_, ?_⟩
  · rw [hrun ext]
    exact EG.foldl_applyMOp_nextNode_le ext _
  · rw [hrun ext]
    exact EG.foldl_applyMOp_nextEdge_le ext _
  · rw [hrun ext]
    exact EG.foldl_applyMOp_node_stale ext _ i hi hiabs
  · rw [hrun ext]
    exact EG.foldl_applyMOp_edge_stale ext _ j hj hjabs

/-- Witness for claim C9: a concrete lineage that adds two nodes and an edge,
removes node 0 (which also removes the incident edge 0), and then keeps
editing; the stale indices 0 (node) and 0 (edge) never alias new elements. -/
theorem claim_C9_witness :
    (0 < (EG.runOps EG.Kind.directed
      ([EG.MOp.addNode "A", EG.MOp.addNode "B", EG.MOp.addEdge 0 1 5,
        EG.MOp.removeNode 0] : List (EG.MOp String Nat))).nextNode) ∧
    (EG.addNode (EG.runOps EG.Kind.directed
      ([EG.MOp.addNode "A", EG.MOp.addNode "B", EG.MOp.addEdge 0 1 5,
        EG.MOp.removeNode 0] : List (EG.MOp String Nat))) "C").2 =
      EG.countAddNodes
        ([EG.MOp.addNode "A", EG.MOp.addNode "B", EG.MOp.addEdge 0 1 5,
          EG.MOp.removeNode 0] : List (EG.MOp String Nat)) ∧
    (∀ q ∈ (EG.runOps EG.Kind.directed
      (([EG.MOp.addNode "A", EG.MOp.addNode "B", EG.MOp.addEdge 0 1 5,
        EG.MOp.removeNode 0] : List (EG.MOp String Nat)) ++
        [EG.MOp.addNode "C", EG.MOp.addEdge 1 2 9])).nodes, q.1 ≠ 0) :=
  ⟨by decide,
    (claim_C9_index_allocation EG.Kind.directed
      ([EG.MOp.addNode "A", EG.MOp.addNode "B", EG.MOp.addEdge 0 1 5,
        EG.MOp.removeNode 0] : List (EG.MOp String Nat))
      [EG.MOp.addNode "C", EG.MOp.addEdge 1 2 9] "C" 0 0
      (by decide) (by decide) (by decide) (by decide)).1,
    ((claim_C9_index_allocation EG.Kind.directed
      ([EG.MOp.addNode "A", EG.MOp.addNode "B", EG.MOp.addEdge 0 1 5,
        EG.MOp.removeNode 0] : List (EG.MOp String Nat))
      [EG.MOp.addNode "C", EG.MOp.addEdge 1 2 9] "C" 0 0
      (by decide) (by decide) (by decide) (by decide)).2.2.2.2.2.2).1⟩

/-!
## C10: structural guarantees of `generateRecommendations`
-/

namespace CartRec

/-- One co-purchase scoring step never decreases the running score (its only
contribution is clamped by `max 0 ·`). -/
theorem coStep_fst_le (pid : String) (acc : ℚ × ℚ × List String) (c : String) :
    acc.1 ≤ (coStep pid acc c).1 := by
  unfold coStep
  repeat' split
  all_goals
    first
      | exact le_refl _
      | exact le_add_of_nonneg_right (le_max_left 0 _)

/-- The co-purchase score over any cart is nonnegative. -/
theorem coScore_fst_nonneg (cart : List String) (pid : String) :
    0 ≤ (coScore cart pid).1 := by
  have key : ∀ (l : List String) (acc : ℚ × ℚ × List String),
      acc.1 ≤ (l.foldl (coStep pid) acc).1 := by
    intro l
    induction l with
    | nil => intro acc; exact le_refl _
    | cons c cs ih =>
        intro acc
        rw [List.foldl_cons]
        exact le_trans (coStep_fst_le pid acc c) (ih (coStep pid acc c))
  simpa [coScore] using key cart (0, 0.5, [])

/-- The preferred-category bonus is nonnegative. -/
theorem prefBonus_nonneg (customer : Customer) (p : Product) :
    0 ≤ prefBonus customer p := by
  unfold prefBonus
  split <;> norm_num

/-- The price-sensitivity score is nonnegative (clamped by `max 0 ·`). -/
theorem priceScore_nonneg (customer : Customer) (p : Product) :
    0 ≤ priceScore customer p :=
  le_max_left 0 _

/-- The segment bonus is nonnegative. -/
theorem segmentBonus_nonneg (customer : Customer) (p : Product) :
    0 ≤ segmentBonus customer p := by
  unfold segmentBonus
  repeat' split
  all_goals norm_num

/-- The seasonal bonus is nonnegative. -/
theorem seasonalBonus_nonneg (p : Product) : 0 ≤ seasonalBonus p := by
  unfold seasonalBonus
  split <;> norm_num

/-- The brand-loyalty bonus is nonnegative. -/
theorem brandBonus_nonneg (cid : String) (p : Product) : 0 ≤ brandBonus cid p := by
  unfold brandBonus
  split <;> norm_num

/-- Every catalog product has rating at least 4.1 and a nonnegative review
count. -/
theorem products_rating_review (p : Product) (hp : p ∈ products) :
    (41 : ℚ)/10 ≤ p.rating ∧ 0 ≤ p.reviewCount := by
  fin_cases hp <;> exact ⟨by norm_num, by norm_num⟩

/-- The rating/popularity score of a catalog product is at least `1/5`
(rating ≥ 4.1 makes the rating term at least 0.2; the review term is
nonnegative). -/
theorem ratingScore_ge (p : Product) (hp : p ∈ products) :
    (1 : ℚ)/5 ≤ ratingScore p := by
  obtain ⟨hr, hrc⟩ := products_rating_review p hp
  have hmin : (0 : ℚ) ≤ min (p.reviewCount / 1000) 3 :=
    le_min (div_nonneg hrc (by norm_num)) (by norm_num)
  unfold ratingScore
  linarith

/-- The raw score of any catalog product is at least `1/5`: every scoring
step contributes nonnegatively and the rating step alone contributes at
least `1/5`. -/
theorem totalScore_ge (cid : String) (customer : Customer) (cart : List String)
    (p : Product) (hp : p ∈ products) :
    (1 : ℚ)/5 ≤ totalScore cid customer cart p := by
  have h1 := coScore_fst_nonneg cart p.id
  have h2 := prefBonus_nonneg customer p
  have h3 := priceScore_nonneg customer p
  have h4 := segmentBonus_nonneg customer p
  have h5 := seasonalBonus_nonneg p
  have h6 := ratingScore_ge p hp
  have h7 := brandBonus_nonneg cid p
  unfold totalScore
  linarith

/-- Rounding to two decimals keeps any score that is at least `1/5` strictly
positive. -/
theorem round2_pos {x : ℚ} (hx : (1 : ℚ)/5 ≤ x) : 0 < round2 x := by
  have h20 : (20 : ℤ) ≤ ⌊x * 100 + 1/2⌋ := by
    apply Int.le_floor.mpr
    push_cast
    linarith
  have h20q : (20 : ℚ) ≤ ((⌊x * 100 + 1/2⌋ : ℤ) : ℚ) := by exact_mod_cast h20
  unfold round2
  exact div_pos (lt_of_lt_of_le (by norm_num) h20q) (by norm_num)

/-- One fold step of the recommendation loop only ever appends records that
satisfy the recommendation guarantees. -/
theorem recStep_good (cid : String) (customer : Customer) (cart : List String)
    (acc : List RecommendationScore) (p : Product) (hp : p ∈ products)
    (r : RecommendationScore) (hr : r ∈ recStep cid customer cart acc p) :
    r ∈ acc ∨ Recommendable cid cart r := by
  unfold recStep at hr
  split at hr
  · exact Or.inl hr
  · rename_i hskip
    split at hr
    · rcases List.mem_append.mp hr with h | h
      · exact Or.inl h
      · right
        have hreq := List.mem_singleton.mp h
        subst hreq
        push_neg at hskip
        obtain ⟨h1, h2, h3⟩ := hskip
        exact ⟨round2_pos (totalScore_ge cid customer cart p hp), h1, h2, p, hp, rfl,
          by simpa using h3⟩
    · exact Or.inl hr

/-- The recommendation fold over any sublist of the catalog preserves the
recommendation guarantees. -/
theorem foldl_recStep_good (cid : String) (customer : Customer) (cart : List String) :
    ∀ (ps : List Product), (∀ p ∈ ps, p ∈ products) →
      ∀ (acc : List RecommendationScore), (∀ r ∈ acc, Recommendable cid cart r) →
        ∀ r ∈ ps.foldl (recStep cid customer cart) acc, Recommendable cid cart r := by
  intro ps
  induction ps with
  | nil => intro _ acc hacc r hr; exact hacc r hr
  | cons p ps ih =>
      intro hps acc hacc r hr
      simp only [List.foldl_cons] at hr
      refine ih (fun q hq => hps q (List.mem_cons_of_mem p hq)) _ ?_ r hr
      intro s hs
      rcases recStep_good cid customer cart acc p (hps p (List.mem_cons_self p ps)) s hs with
        h | h
      · exact hacc s h
      · exact h

/-- An unknown customer id makes `generateRecommendations` return the empty
list (the customer lookup fails before any scoring happens). -/
theorem generateRecommendations_unknown (customerId : String) (cartProducts : List String)
    (maxRecommendations : Nat) (h : ∀ c ∈ customers, c.id ≠ customerId) :
    generateRecommendations customerId cartProducts maxRecommendations = [] := by
  unfold generateRecommendations
  have hnone : customers.find? (fun c => c.id == customerId) = none :=
    List.find?_eq_none.mpr (fun c hc => by simpa using h c hc)
  rw [hnone]

end CartRec

/-- **C10**: `generateRecommendations(customerId, cartProducts,
maxRecommendations)` returns at most `maxRecommendations` entries sorted in
non-increasing score order, each with score > 0; it never recommends a
product that is in the cart, already purchased by that customer, or out of
stock, and it returns the empty list for an unknown `customerId`. -/
theorem claim_C10_generateRecommendations (customerId : String)
    (cartProducts : List String) (maxRecommendations : Nat) :
    (CartRec.generateRecommendations customerId cartProducts maxRecommendations).length
        ≤ maxRecommendations ∧
    List.Sorted CartRec.scoreOrder
      (CartRec.generateRecommendations customerId cartProducts maxRecommendations) ∧
    (∀ r ∈ CartRec.generateRecommendations customerId cartProducts maxRecommendations,
      0 < r.score ∧ r.productId ∉ cartProducts ∧
        r.productId ∉ CartRec.purchasedIds customerId ∧
        ∃ p ∈ CartRec.products, p.id = r.productId ∧ p.inStock = true) ∧
    ((∀ c ∈ CartRec.customers, c.id ≠ customerId) →
      CartRec.generateRecommendations customerId cartProducts maxRecommendations = []) := by
  cases hfind : CartRec.customers.find? (fun c => c.id == customerId) with
  | none =>
      have hnil : CartRec.generateRecommendations customerId cartProducts
          maxRecommendations = [] := by
        unfold CartRec.generateRecommendations
        rw [hfind]
      refine ⟨?_, ?_, ?_, fun _ => hnil⟩
      · rw [hnil]; exact Nat.zero_le _
      · rw [hnil]; exact List.sorted_nil
      · rw [hnil]; intro r hr; exact absurd hr (List.not_mem_nil r)
  | some customer =>
      have heq : CartRec.generateRecommendations customerId cartProducts
          maxRecommendations =
          (List.insertionSort CartRec.scoreOrder
            (CartRec.products.foldl
              (CartRec.recStep customerId customer cartProducts) [])).take
            maxRecommendations := by
        unfold CartRec.generateRecommendations
        rw [hfind]
      refine ⟨?_, ?_, ?_, ?_⟩
      · rw [heq, List.length_take]
        exact min_le_left _ _
      · rw [heq]
        exact (List.sorted_insertionSort CartRec.scoreOrder _).sublist
          (List.take_sublist _ _)
      · intro r hr
        rw [heq] at hr
        have hr2 : r ∈ List.insertionSort CartRec.scoreOrder
            (CartRec.products.foldl (CartRec.recStep customerId customer cartProducts) []) :=
          List.mem_of_mem_take hr
        have hr3 : r ∈ CartRec.products.foldl
            (CartRec.recStep customerId customer cartProducts) [] :=
          ((List.perm_insertionSort CartRec.scoreOrder _).mem_iff).mp hr2
        exact CartRec.foldl_recStep_good customerId customer cartProducts
          CartRec.products (fun p hp => hp) []
          (fun s hs => absurd hs (List.not_mem_nil s)) r hr3
      · intro h
        have hmem := List.mem_of_find?_eq_some hfind
        have hid : customer.id = customerId := by
          simpa using List.find?_some hfind
        exact absurd hid (h customer hmem)

/-- Witness for claim C10: a customer id outside the customer base yields no
recommendations. -/
theorem claim_C10_witness :
    CartRec.generateRecommendations "ghost-customer" ["macbook-pro-16"] 5 = [] :=
  (claim_C10_generateRecommendations "ghost-customer" ["macbook-pro-16"] 5).2.2.2
    (by decide)
